import Mathlib

/-!
Six-sub-chess rule engine (`Classes/GameLogic.cpp`)

A shallow embedding of the board rule engine: the bounds and adjacency
predicates, the cell accessors, the move queue drained by `update`, the
line scans and the kill detection, followed by theorems about them.

Conventions of the embedding

* Coordinates and array indices are mathematical integers (`Int`); the board
  is a `List` of cells.  Indexing the board outside `[0, size)` is undefined
  behaviour in the source (`operator[]` is unchecked); here every read and
  write is explicit and yields `none` in that case, so a function returning
  `Option` returns `none` exactly when the source would touch memory outside
  the board.
* The constants and the ordering that the code takes from the header
  `GameLogic.h` (the two board dimensions, and the `operator<` on `Vec2` that
  `std::set<Vec2>` uses) are collected in `GameLogic.Header`, and every
  function takes it as a parameter.
* Registered callbacks are external code; they are kept as identifiers and
  invoking them does not change the engine.
-/

/-- Modelled from the spec: the enumeration `GameLogic::ChessPieceType` is declared in
`GameLogic.h`; a cell value is `NONE`, `BLACK` or `WHITE`. -/
inductive GameLogic.ChessPieceType where
  | NONE
  | BLACK
  | WHITE
  deriving DecidableEq, Repr

/-- Modelled from the spec: the enumeration `GameLogic::ActionType` is declared in
`GameLogic.h`; an action is `MOVED`, `KILLED` or `STANDBY`, and `NONE` is the kind of
the sentinel record. -/
inductive GameLogic.ActionType where
  | NONE
  | MOVED
  | KILLED
  | STANDBY
  deriving DecidableEq, Repr

/-- Modelled from the spec: the type `GameLogic::Vec2` is declared in `GameLogic.h`; a
position is an integer pair, `x` the column and `y` the row. -/
structure GameLogic.Vec2 where
  x : Int
  y : Int
  deriving DecidableEq, Repr

/-- Modelled from the spec: the record `GameLogic::Action` is declared in
`GameLogic.h`; its four fields are the ones `add_action` assigns. -/
structure GameLogic.Action where
  type : GameLogic.ActionType
  chess_type : GameLogic.ChessPieceType
  source : GameLogic.Vec2
  target : GameLogic.Vec2
  deriving DecidableEq, Repr

/-- Modelled from the spec: the record `GameLogic::MoveTrack` is declared in
`GameLogic.h`; a pending request is a `(source, target)` pair. -/
structure GameLogic.MoveTrack where
  source : GameLogic.Vec2
  target : GameLogic.Vec2
  deriving DecidableEq, Repr

/-- The compile-time parameters declared in `GameLogic.h`: the number of rows
and of columns of the board, and the strict ordering `operator<` on `Vec2`
that `std::set<Vec2>` uses. -/
structure GameLogic.Header where
  kCheckerboardRowNum : Nat
  kCheckerboardColNum : Nat
  vec2_less : GameLogic.Vec2 → GameLogic.Vec2 → Bool

/-- The member variables of the engine object. -/
structure GameLogic where
  checkerboard_ : List GameLogic.ChessPieceType
  standby_type_ : GameLogic.ChessPieceType
  action_queue_ : List GameLogic.Action
  move_queue_ : List GameLogic.MoveTrack
  action_callback_list_ : List Nat
  deriving DecidableEq, Repr

namespace GameLogic

/-- Modelled from the spec: the default-constructed `Vec2()`, which the spec calls the
zero position. -/
def Vec2.zero : Vec2 := ⟨0, 0⟩

/-- Unchecked array read `checkerboard[i]`: `none` when `i` is outside the
array. -/
def readAt (board : List ChessPieceType) (i : Int) : Option ChessPieceType :=
  if i < 0 then none else board[i.toNat]?

/-- Unchecked array write `checkerboard[i] = v`: `none` when `i` is outside
the array. -/
def writeAt (board : List ChessPieceType) (i : Int) (v : ChessPieceType) :
    Option (List ChessPieceType) :=
  if i < 0 then none
  else if i.toNat < board.length then some (board.set i.toNat v)
  else none

/-- Constructor `GameLogic::GameLogic(checkerboard)`. -/
def init (checkerboard : List ChessPieceType) : GameLogic :=
  { checkerboard_ := checkerboard
    standby_type_ := ChessPieceType.BLACK
    action_queue_ := []
    move_queue_ := []
    action_callback_list_ := [] }

/-- Operation `GameLogic::clear`. -/
def clear (s : GameLogic) : GameLogic :=
  { s with action_queue_ := [], action_callback_list_ := [] }

/-- Operation `GameLogic::get_action_from_queue`. -/
def get_action_from_queue (s : GameLogic) (index : Nat) : Action :=
  let action : Action :=
    ⟨ActionType.NONE, ChessPieceType.NONE, Vec2.zero, Vec2.zero⟩
  if index < s.action_queue_.length then
    s.action_queue_.getD index action
  else action

/-- Operation `GameLogic::add_action`: append the record; the registered
callbacks are then invoked, which leaves the engine as it is. -/
def add_action (s : GameLogic) (type : ActionType) (chess_type : ChessPieceType)
    (source target : Vec2) : GameLogic :=
  { s with action_queue_ := s.action_queue_ ++ [⟨type, chess_type, source, target⟩] }

/-- Operation `GameLogic::add_action_update_callback`, for a non-null
callback. -/
def add_action_update_callback (s : GameLogic) (callback : Nat) : GameLogic :=
  add_action { s with action_callback_list_ := s.action_callback_list_ ++ [callback] }
    ActionType.STANDBY s.standby_type_ Vec2.zero Vec2.zero

/-- The positions and values that `GameLogic::visit_checkerboard` passes to
its callback, in order: cell `i` is reported at column `i % cols`, row
`i / cols`. -/
def visit_checkerboard (h : Header) (s : GameLogic) : List (Vec2 × ChessPieceType) :=
  (List.range s.checkerboard_.length).filterMap fun i =>
    (s.checkerboard_[i]?).map fun t =>
      (⟨((i % h.kCheckerboardColNum : Nat) : Int), ((i / h.kCheckerboardColNum : Nat) : Int)⟩, t)

/-- Predicate `GameLogic::is_in_checkerboard`. -/
def is_in_checkerboard (h : Header) (pos : Vec2) : Bool :=
  decide (pos.x ≥ 0) && decide (pos.y ≥ 0) && decide (pos.x < h.kCheckerboardColNum)
    && decide (pos.y < h.kCheckerboardRowNum)

/-- Predicate `GameLogic::is_valid_chess_piece`; the cell is read only for a
position that passed the bounds check. -/
def is_valid_chess_piece (h : Header) (s : GameLogic) (pos : Vec2) : Option Bool :=
  if is_in_checkerboard h pos then
    (readAt s.checkerboard_ (pos.y * h.kCheckerboardRowNum + pos.x)).map
      fun t => decide (t ≠ ChessPieceType.NONE)
  else some false

/-- Accessor `GameLogic::get_chesspiece_type`. -/
def get_chesspiece_type (h : Header) (s : GameLogic) (pos : Vec2) : Option ChessPieceType :=
  (is_valid_chess_piece h s pos).bind fun v =>
    if v then readAt s.checkerboard_ (pos.y * h.kCheckerboardRowNum + pos.x)
    else some ChessPieceType.NONE

/-- Predicate `GameLogic::is_adjacent`. -/
def is_adjacent (h : Header) (a b : Vec2) : Bool :=
  is_in_checkerboard h a && is_in_checkerboard h a
    && decide (|b.x - a.x| + |b.y - a.y| = 1)

/-- Operation `GameLogic::move_chess_piece`: enqueue the request. -/
def move_chess_piece (s : GameLogic) (source target : Vec2) : GameLogic :=
  { s with move_queue_ := s.move_queue_ ++ [⟨source, target⟩] }

/-- Insertion into a `std::set<Vec2>`, kept as the list of its elements in
iteration order: the new element goes before the first element greater than
it, and is dropped when an equivalent element is present. -/
def set_insert (h : Header) (p : Vec2) : List Vec2 → List Vec2
  | [] => [p]
  | q :: qs =>
    if h.vec2_less p q then p :: q :: qs
    else if h.vec2_less q p then q :: set_insert h p qs
    else q :: qs

/-- The `for` loop shared by the two line scans, with `n` iterations left,
loop counter `i`, run length `continuous` and collected positions `ret`;
`idx i` is the array index and `mk i` the position of the `i`-th cell of the
line. -/
def scan_loop (checkerboard : List ChessPieceType) (idx : Int → Int) (mk : Int → Vec2) :
    Nat → Int → Nat → List Vec2 → Option (List Vec2)
  | 0, _, _, ret => some ret
  | n + 1, i, continuous, ret =>
    (readAt checkerboard (idx i)).bind fun t =>
      if t ≠ ChessPieceType.NONE then
        scan_loop checkerboard idx mk n (i + 1) (continuous + 1) (ret ++ [mk i])
      else if continuous = 3 then some ret
      else scan_loop checkerboard idx mk n (i + 1) 0 []

/-- Function `GameLogic::get_chesspieces_with_horizontal`. -/
def get_chesspieces_with_horizontal (h : Header) (checkerboard : List ChessPieceType)
    (pos : Vec2) : Option (List Vec2) :=
  (readAt checkerboard (pos.y * h.kCheckerboardColNum)).bind fun _last_type =>
    (scan_loop checkerboard (fun i => pos.y * h.kCheckerboardColNum + i)
        (fun i => ⟨i, pos.y⟩) h.kCheckerboardColNum 0 0 []).map fun ret =>
      if ret.length ≠ 3 then [] else ret

/-- Function `GameLogic::get_chesspieces_with_vertical`. -/
def get_chesspieces_with_vertical (h : Header) (checkerboard : List ChessPieceType)
    (pos : Vec2) : Option (List Vec2) :=
  (readAt checkerboard (pos.y * h.kCheckerboardColNum)).bind fun _last_type =>
    (scan_loop checkerboard (fun i => i * h.kCheckerboardColNum + pos.x)
        (fun i => ⟨pos.x, i⟩) h.kCheckerboardRowNum 0 0 []).map fun ret =>
      if ret.length ≠ 3 then [] else ret

/-- The `std::accumulate` of `get_killed_chesspiece`: the number of
candidates whose cell holds `key`, starting from `sum`. -/
def count_key (h : Header) (checkerboard : List ChessPieceType) (key : ChessPieceType) :
    List Vec2 → Nat → Option Nat
  | [], sum => some sum
  | item :: items, sum =>
    (readAt checkerboard (item.y * h.kCheckerboardColNum + item.x)).bind fun t =>
      count_key h checkerboard key items (if key = t then sum + 1 else sum)

/-- The marking loop of `get_killed_chesspiece` over the candidates from
index `i` on; the cell is read only when `i != 1`. -/
def mark_loop (h : Header) (checkerboard : List ChessPieceType) (key : ChessPieceType) :
    List Vec2 → Nat → List Vec2 → Option (List Vec2)
  | [], _, ret => some ret
  | c :: cs, i, ret =>
    if i ≠ 1 then
      (readAt checkerboard (c.y * h.kCheckerboardColNum + c.x)).bind fun t =>
        if t ≠ key then mark_loop h checkerboard key cs (i + 1) (set_insert h c ret)
        else mark_loop h checkerboard key cs (i + 1) ret
    else mark_loop h checkerboard key cs (i + 1) ret

/-- Function `GameLogic::get_killed_chesspiece`. -/
def get_killed_chesspiece (h : Header) (checkerboard : List ChessPieceType)
    (key : ChessPieceType) (chesspieces : List Vec2) : Option (List Vec2) :=
  if chesspieces.length = 3 then
    (count_key h checkerboard key chesspieces 0).bind fun sum =>
      if sum = 2 then mark_loop h checkerboard key chesspieces 0 []
      else some []
  else some []

/-- Function `GameLogic::check_kill_chesspiece`. -/
def check_kill_chesspiece (h : Header) (checkerboard : List ChessPieceType) (pos : Vec2) :
    Option (List Vec2) :=
  (readAt checkerboard (pos.y * h.kCheckerboardColNum + pos.x)).bind fun key =>
  (get_chesspieces_with_vertical h checkerboard pos).bind fun v_array =>
  (get_chesspieces_with_horizontal h checkerboard pos).bind fun h_array =>
  (get_killed_chesspiece h checkerboard key h_array).bind fun horizontal_set =>
  (get_killed_chesspiece h checkerboard key v_array).bind fun vertical_set =>
    some (vertical_set.foldl (fun acc p => set_insert h p acc) horizontal_set)

/-- The condition of the `if` in `GameLogic::update`, evaluated left to right
with short-circuiting. -/
def move_accepted (h : Header) (s : GameLogic) (source target : Vec2) : Option Bool :=
  if source = target then some false
  else (is_valid_chess_piece h s source).bind fun v1 =>
    if v1 = false then some false
    else (is_valid_chess_piece h s target).bind fun v2 =>
      if v2 = true then some false
      else if is_adjacent h source target = false then some false
      else (readAt s.checkerboard_ (target.y * h.kCheckerboardRowNum + target.x)).map
        fun t => decide (t ≠ s.standby_type_)

/-- The exchange `std::swap(checkerboard[i], checkerboard[j])`. -/
def swap_cells (board : List ChessPieceType) (i j : Int) : Option (List ChessPieceType) :=
  (readAt board i).bind fun a =>
  (readAt board j).bind fun b =>
  (writeAt board i b).bind fun board1 =>
    writeAt board1 j a

/-- The loop over `killed_set` in `GameLogic::update`: clear the cell and log
a `KILLED` action. -/
def kill_loop (h : Header) (target : Vec2) : List Vec2 → GameLogic → Option GameLogic
  | [], s => some s
  | pos :: rest, s =>
    (writeAt s.checkerboard_ (pos.y * h.kCheckerboardRowNum + pos.x) ChessPieceType.NONE).bind
      fun board =>
        kill_loop h target rest
          (add_action { s with checkerboard_ := board } ActionType.KILLED ChessPieceType.NONE
            target pos)

/-- The body of the `if` in `GameLogic::update` for an accepted request. -/
def apply_move (h : Header) (s : GameLogic) (source target : Vec2) : Option GameLogic :=
  (swap_cells s.checkerboard_ (source.y * h.kCheckerboardRowNum + source.x)
      (target.y * h.kCheckerboardRowNum + target.x)).bind fun board =>
  (readAt board (target.y * h.kCheckerboardRowNum + target.x)).bind fun moved =>
  let s1 := add_action { s with checkerboard_ := board } ActionType.MOVED moved source target
  (check_kill_chesspiece h s1.checkerboard_ target).bind fun killed_set =>
  (kill_loop h target killed_set s1).bind fun s2 =>
  (readAt s2.checkerboard_ (target.y * h.kCheckerboardRowNum + target.x)).bind fun standby =>
    some (add_action { s2 with standby_type_ := standby } ActionType.STANDBY standby
      Vec2.zero Vec2.zero)

/-- One iteration of the `while` loop of `GameLogic::update`, up to the
`pop`: the front request `(source, target)` is applied or dropped. -/
def update_front (h : Header) (s : GameLogic) (source target : Vec2) : Option GameLogic :=
  (move_accepted h s source target).bind fun ok =>
    if ok then apply_move h s source target else some s

/-- The `while` loop of `GameLogic::update` over the queued requests. -/
def update_loop (h : Header) : List MoveTrack → GameLogic → Option GameLogic
  | [], s => some { s with move_queue_ := [] }
  | m :: rest, s =>
    (update_front h { s with move_queue_ := m :: rest } m.source m.target).bind fun s1 =>
      update_loop h rest { s1 with move_queue_ := rest }

/-- Operation `GameLogic::update`. -/
def update (h : Header) (s : GameLogic) : Option GameLogic :=
  update_loop h s.move_queue_ s

/-- The ordering of positions by column, then row, used where a concrete
`Header` is needed. -/
def lex_less (a b : Vec2) : Bool :=
  decide (a.x < b.x) || (decide (a.x = b.x) && decide (a.y < b.y))

/-- The `k` consecutive positions `mk a, mk (a + 1), ...` of a line. -/
def seg (mk : Int → Vec2) (a : Int) (k : Nat) : List Vec2 :=
  (List.range k).map (fun (d : Nat) => mk (a + (d : Int)))

/-- The cell at a position in row-major order, `checkerboard[pos.y * cols + pos.x]`, as
`visit_checkerboard` reports it and the kill detection reads it. -/
def cell_at (h : Header) (board : List ChessPieceType) (pos : Vec2) : Option ChessPieceType :=
  readAt board (pos.y * h.kCheckerboardColNum + pos.x)

/-- The board after the writes of `kill_loop`: the cell of every listed position set
to `NONE`, in order. -/
def kill_board (h : Header) : List Vec2 → List ChessPieceType → List ChessPieceType
  | [], board => board
  | pos :: rest, board =>
    kill_board h rest
      (board.set (pos.y * h.kCheckerboardRowNum + pos.x).toNat ChessPieceType.NONE)

/-- A board of `n` rows and `n` columns. -/
def square (n : Nat) : Header := ⟨n, n, lex_less⟩

/-- The board has one cell per position. -/
def WellFormed (h : Header) (s : GameLogic) : Prop :=
  s.checkerboard_.length = h.kCheckerboardRowNum * h.kCheckerboardColNum

instance (h : Header) (s : GameLogic) : Decidable (WellFormed h s) := by
  unfold WellFormed
  infer_instance

/-- A 3 x 3 board: row 0 holds `W B _`, row 1 holds `_ _ B`, row 2 is empty. -/
def board_wb_b : List ChessPieceType :=
  [.WHITE, .BLACK, .NONE, .NONE, .NONE, .BLACK, .NONE, .NONE, .NONE]

/-- A 4 x 4 board with a single black piece, at column 0 of row 0. -/
def board_lone_black : List ChessPieceType :=
  [.BLACK, .NONE, .NONE, .NONE, .NONE, .NONE, .NONE, .NONE, .NONE, .NONE, .NONE, .NONE,
    .NONE, .NONE, .NONE, .NONE]

/-- A 1 x 3 header and the three positions of its single row. -/
def row3 : Header := ⟨1, 3, lex_less⟩

/-- Processing of a list of requests one at a time, in order: each request is
applied or dropped by `update_front` on the state left by the previous ones. -/
def process_fifo (h : Header) : List MoveTrack → GameLogic → Option GameLogic
  | [], s => some s
  | m :: rest, s => (update_front h s m.source m.target).bind (process_fifo h rest)

/-- Submission of a list of requests by successive calls of `move_chess_piece`. -/
def submit (s : GameLogic) (requests : List MoveTrack) : GameLogic :=
  requests.foldl (fun acc m => move_chess_piece acc m.source m.target) s

/-- The record that `get_action_from_queue` returns for an index outside the log. -/
def sentinel_action : Action :=
  ⟨ActionType.NONE, ChessPieceType.NONE, Vec2.zero, Vec2.zero⟩

/-- The other colour: `BLACK` for `WHITE` and `WHITE` for `BLACK`. -/
def opposite : ChessPieceType → ChessPieceType
  | .BLACK => .WHITE
  | .WHITE => .BLACK
  | .NONE => .NONE

/-- Whether the cell at a position holds a piece. -/
def occupied_at (h : Header) (board : List ChessPieceType) (pos : Vec2) : Bool :=
  match cell_at h board pos with
  | some t => decide (t ≠ ChessPieceType.NONE)
  | none => false

/-- On a line of `n` cells with occupancy `occ`, the cells `a, a + 1, a + 2` form a
maximal run of consecutive occupied cells of length exactly 3: the three cells are
occupied, and the cell before `a` and the cell after `a + 2`, when the line has them,
are not. -/
def exact_run3 (occ : Int → Bool) (n : Nat) (a : Int) : Prop :=
  0 ≤ a ∧ a + 3 ≤ n ∧ occ a = true ∧ occ (a + 1) = true ∧ occ (a + 2) = true ∧
    (a = 0 ∨ occ (a - 1) = false) ∧ (a + 3 = n ∨ occ (a + 3) = false)

/-- A 4 x 4 board whose row 0 holds `_ B W B`, the other rows being empty. -/
def board_gap_bwb : List ChessPieceType :=
  [.NONE, .BLACK, .WHITE, .BLACK, .NONE, .NONE, .NONE, .NONE, .NONE, .NONE, .NONE, .NONE,
    .NONE, .NONE, .NONE, .NONE]

/-- The adjacency that the spec describes, for comparison with `is_adjacent`: both
positions are in bounds and their Manhattan distance is exactly 1. -/
def spec_is_adjacent (h : Header) (a b : Vec2) : Bool :=
  is_in_checkerboard h a && is_in_checkerboard h b
    && decide (|b.x - a.x| + |b.y - a.y| = 1)

/-- A 4 x 4 board with a black piece at column 3 of row 0 and a white piece at column 0
of row 1, the other cells being empty. -/
def board_edge_bw : List ChessPieceType :=
  [.NONE, .NONE, .NONE, .BLACK, .WHITE, .NONE, .NONE, .NONE, .NONE, .NONE, .NONE, .NONE,
    .NONE, .NONE, .NONE, .NONE]

/-- A 5 x 5 board with a black piece at column 4 of row 0 and white pieces at column 0
of rows 2 and 3, the other cells being empty. -/
def board5_edge : List ChessPieceType :=
  [.NONE, .NONE, .NONE, .NONE, .BLACK, .NONE, .NONE, .NONE, .NONE, .NONE,
    .WHITE, .NONE, .NONE, .NONE, .NONE, .WHITE, .NONE, .NONE, .NONE, .NONE,
    .NONE, .NONE, .NONE, .NONE, .NONE]

end GameLogic

namespace GameLogic
open ChessPieceType

/-! ## Reads and writes of the board -/

theorem readAt_of_lt (board : List ChessPieceType) (i : Int) (h0 : 0 ≤ i)
    (h1 : i < board.length) : ∃ t, readAt board i = some t := by
  have h2 : i.toNat < board.length := by omega
  refine ⟨board[i.toNat], ?_⟩
  simp [readAt, not_lt.mpr h0, List.getElem?_eq_getElem h2]

theorem readAt_some_bounds {board : List ChessPieceType} {i : Int} {t : ChessPieceType}
    (hr : readAt board i = some t) : 0 ≤ i ∧ i < board.length := by
  unfold readAt at hr
  split at hr
  · simp at hr
  · rename_i hi
    have := List.getElem?_eq_some_iff.mp hr
    obtain ⟨hlt, _⟩ := this
    omega

theorem writeAt_of_lt (board : List ChessPieceType) (i : Int) (v : ChessPieceType)
    (h0 : 0 ≤ i) (h1 : i < board.length) :
    writeAt board i v = some (board.set i.toNat v) := by
  have h2 : i.toNat < board.length := by omega
  simp [writeAt, not_lt.mpr h0, h2]

theorem readAt_set_same (board : List ChessPieceType) (i : Int) (v : ChessPieceType)
    (h0 : 0 ≤ i) (h1 : i < board.length) :
    readAt (board.set i.toNat v) i = some v := by
  have h2 : i.toNat < board.length := by omega
  simp [readAt, not_lt.mpr h0, h2]

theorem readAt_set_other (board : List ChessPieceType) (i j : Int) (v : ChessPieceType)
    (h0 : 0 ≤ i) (hj : 0 ≤ j) (hne : i ≠ j) :
    readAt (board.set i.toNat v) j = readAt board j := by
  have h2 : i.toNat ≠ j.toNat := by omega
  simp [readAt, not_lt.mpr hj, List.getElem?_set_ne h2]

/-! ## The selection among three candidates -/

theorem get_killed_chesspiece_three (h : Header) (board : List ChessPieceType)
    (key : ChessPieceType) (c0 c1 c2 : Vec2) (t0 t1 t2 : ChessPieceType)
    (h0 : readAt board (c0.y * h.kCheckerboardColNum + c0.x) = some t0)
    (h1 : readAt board (c1.y * h.kCheckerboardColNum + c1.x) = some t1)
    (h2 : readAt board (c2.y * h.kCheckerboardColNum + c2.x) = some t2) :
    get_killed_chesspiece h board key [c0, c1, c2] =
      some (if t0 ≠ key ∧ t1 = key ∧ t2 = key then [c0]
        else if t0 = key ∧ t1 = key ∧ t2 ≠ key then [c2] else []) := by
  have k0 : key = t0 ↔ t0 = key := eq_comm
  have k1 : key = t1 ↔ t1 = key := eq_comm
  have k2 : key = t2 ↔ t2 = key := eq_comm
  by_cases e0 : t0 = key <;> by_cases e1 : t1 = key <;> by_cases e2 : t2 = key <;>
    simp [get_killed_chesspiece, count_key, mark_loop, set_insert, h0, h1, h2, k0, k1, k2,
      e0, e1, e2]

theorem get_killed_chesspiece_not_three (h : Header) (board : List ChessPieceType)
    (key : ChessPieceType) (cs : List Vec2) (hcs : cs.length ≠ 3) :
    get_killed_chesspiece h board key cs = some [] := by
  simp [get_killed_chesspiece, hcs]

/-! ## The line scans -/

theorem index_bounds (R C : Nat) (x y : Int) (hx0 : 0 ≤ x) (hx1 : x < C) (hy0 : 0 ≤ y)
    (hy1 : y < R) : 0 ≤ y * C + x ∧ y * C + x < ((R * C : Nat) : Int) := by
  have hC : (0 : Int) ≤ C := Int.ofNat_nonneg C
  constructor
  · positivity
  · push_cast
    have h1 : y + 1 ≤ R := by omega
    have h2 : (y + 1) * C ≤ R * C := Int.mul_le_mul_of_nonneg_right h1 hC
    linarith

theorem is_in_checkerboard_iff (h : Header) (pos : Vec2) :
    is_in_checkerboard h pos = true ↔
      0 ≤ pos.x ∧ 0 ≤ pos.y ∧ pos.x < h.kCheckerboardColNum ∧ pos.y < h.kCheckerboardRowNum := by
  simp [is_in_checkerboard, and_assoc]

theorem seg_length (mk : Int → Vec2) (a : Int) (k : Nat) : (seg mk a k).length = k := by
  simp [seg]

theorem seg_succ (mk : Int → Vec2) (a : Int) (k : Nat) :
    seg mk a (k + 1) = seg mk a k ++ [mk (a + k)] := by
  simp [seg, List.range_succ]

theorem seg_three (mk : Int → Vec2) (a : Int) :
    seg mk a 3 = [mk a, mk (a + 1), mk (a + 2)] := by
  simp [seg, List.range_succ]

theorem scan_loop_spec (board : List ChessPieceType) (idx : Int → Int) (mk : Int → Vec2)
    (lo : Int) : ∀ (n : Nat) (i : Int) (c : Nat) (ret : List Vec2),
    (∀ j, i ≤ j → j < i + n → ∃ t, readAt board (idx j) = some t) →
    ret = seg mk (i - c) c → lo ≤ i - c →
    (∀ j, i - c ≤ j → j < i → ∃ t, readAt board (idx j) = some t ∧ t ≠ NONE) →
    ∃ a k, scan_loop board idx mk n i c ret = some (seg mk a k) ∧ lo ≤ a ∧ a + k ≤ i + n ∧
      (∀ j, a ≤ j → j < a + k → ∃ t, readAt board (idx j) = some t ∧ t ≠ NONE) := by
  intro n
  induction n with
  | zero =>
    intro i c ret _ hret hlo hocc
    refine ⟨i - c, c, by simp [scan_loop, hret], hlo, by simp, ?_⟩
    intro j h1 h2
    exact hocc j h1 (by omega)
  | succ n ih =>
    intro i c ret hread hret hlo hocc
    obtain ⟨t, ht⟩ := hread i (le_refl i) (by push_cast; omega)
    have hread2 : ∀ j, i + 1 ≤ j → j < i + 1 + n → ∃ t, readAt board (idx j) = some t := by
      intro j h1 h2
      exact hread j (by omega) (by push_cast; omega)
    by_cases hn : t = NONE
    · by_cases hc : c = 3
      · refine ⟨i - c, c, by simp [scan_loop, ht, hn, hc, hret], hlo, by push_cast; omega, ?_⟩
        intro j h1 h2
        exact hocc j h1 (by omega)
      · obtain ⟨a, k, h1, h2, h3, h4⟩ := ih (i + 1) 0 [] (by simpa using hread2)
          (by simp [seg]) (by push_cast; omega) (by intro j h1 h2; exfalso; push_cast at h1; omega)
        refine ⟨a, k, by simp [scan_loop, ht, hn, hc, h1], by omega,
          by push_cast; omega, h4⟩
    · obtain ⟨a, k, h1, h2, h3, h4⟩ := ih (i + 1) (c + 1) (ret ++ [mk i]) hread2
        (by
          have e : i + 1 - ((c + 1 : Nat) : Int) = i - c := by push_cast; omega
          rw [e, seg_succ, hret]
          have e2 : i - (c : Int) + c = i := by omega
          rw [e2])
        (by push_cast; omega)
        (by
          intro j h1 h2
          by_cases hj : j = i
          · subst hj
            exact ⟨t, ht, hn⟩
          · exact hocc j (by push_cast at h1; omega) (by omega))
      refine ⟨a, k, by simp [scan_loop, ht, hn, h1], by omega,
        by push_cast; omega, h4⟩

theorem get_chesspieces_with_horizontal_spec (h : Header) (board : List ChessPieceType)
    (pos : Vec2) (hlen : board.length = h.kCheckerboardRowNum * h.kCheckerboardColNum)
    (hin : is_in_checkerboard h pos = true) :
    ∃ ret, get_chesspieces_with_horizontal h board pos = some ret ∧
      (ret = [] ∨ ∃ a : Int, 0 ≤ a ∧ a + 3 ≤ h.kCheckerboardColNum ∧
        ret = [⟨a, pos.y⟩, ⟨a + 1, pos.y⟩, ⟨a + 2, pos.y⟩] ∧
        ∀ j, a ≤ j → j < a + 3 →
          ∃ t, readAt board (pos.y * h.kCheckerboardColNum + j) = some t ∧ t ≠ NONE) := by
  obtain ⟨hx0, hy0, hx1, hy1⟩ := (is_in_checkerboard_iff h pos).mp hin
  have hrd : ∀ j : Int, 0 ≤ j → j < 0 + h.kCheckerboardColNum →
      ∃ t, readAt board (pos.y * h.kCheckerboardColNum + j) = some t := by
    intro j h1 h2
    have hb := index_bounds h.kCheckerboardRowNum h.kCheckerboardColNum j pos.y h1
      (by omega) hy0 hy1
    exact readAt_of_lt board _ hb.1 (by rw [hlen]; exact hb.2)
  obtain ⟨t0, ht0⟩ := hrd 0 (le_refl 0) (by omega)
  obtain ⟨a, k, h1, h2, h3, h4⟩ := scan_loop_spec board
    (fun i => pos.y * h.kCheckerboardColNum + i) (fun i => ⟨i, pos.y⟩) 0
    h.kCheckerboardColNum 0 0 [] hrd (by simp [seg]) (by simp)
    (by intro j h1 h2; exfalso; push_cast at h1; omega)
  simp only [add_zero] at ht0
  by_cases hk : k = 3
  · subst hk
    refine ⟨seg (fun i => ⟨i, pos.y⟩) a 3, ?_, Or.inr ⟨a, h2, by push_cast at h3; omega,
      seg_three _ a, by simpa using h4⟩⟩
    simp [get_chesspieces_with_horizontal, ht0, h1, seg_length]
  · refine ⟨[], ?_, Or.inl rfl⟩
    simp [get_chesspieces_with_horizontal, ht0, h1, seg_length, hk]

theorem get_chesspieces_with_vertical_spec (h : Header) (board : List ChessPieceType)
    (pos : Vec2) (hlen : board.length = h.kCheckerboardRowNum * h.kCheckerboardColNum)
    (hin : is_in_checkerboard h pos = true) :
    ∃ ret, get_chesspieces_with_vertical h board pos = some ret ∧
      (ret = [] ∨ ∃ a : Int, 0 ≤ a ∧ a + 3 ≤ h.kCheckerboardRowNum ∧
        ret = [⟨pos.x, a⟩, ⟨pos.x, a + 1⟩, ⟨pos.x, a + 2⟩] ∧
        ∀ j, a ≤ j → j < a + 3 →
          ∃ t, readAt board (j * h.kCheckerboardColNum + pos.x) = some t ∧ t ≠ NONE) := by
  obtain ⟨hx0, hy0, hx1, hy1⟩ := (is_in_checkerboard_iff h pos).mp hin
  have hrd : ∀ j : Int, 0 ≤ j → j < 0 + h.kCheckerboardRowNum →
      ∃ t, readAt board (j * h.kCheckerboardColNum + pos.x) = some t := by
    intro j h1 h2
    have hb := index_bounds h.kCheckerboardRowNum h.kCheckerboardColNum pos.x j hx0 hx1 h1
      (by omega)
    exact readAt_of_lt board _ hb.1 (by rw [hlen]; exact hb.2)
  have hb0 := index_bounds h.kCheckerboardRowNum h.kCheckerboardColNum 0 pos.y (le_refl 0)
    (by omega) hy0 hy1
  obtain ⟨t0, ht0⟩ := readAt_of_lt board _ hb0.1 (by rw [hlen]; exact hb0.2)
  obtain ⟨a, k, h1, h2, h3, h4⟩ := scan_loop_spec board
    (fun i => i * h.kCheckerboardColNum + pos.x) (fun i => ⟨pos.x, i⟩) 0
    h.kCheckerboardRowNum 0 0 [] hrd (by simp [seg]) (by simp)
    (by intro j h1 h2; exfalso; push_cast at h1; omega)
  simp only [add_zero] at ht0
  by_cases hk : k = 3
  · subst hk
    refine ⟨seg (fun i => ⟨pos.x, i⟩) a 3, ?_, Or.inr ⟨a, h2, by push_cast at h3; omega,
      seg_three _ a, by simpa using h4⟩⟩
    simp [get_chesspieces_with_vertical, ht0, h1, seg_length]
  · refine ⟨[], ?_, Or.inl rfl⟩
    simp [get_chesspieces_with_vertical, ht0, h1, seg_length, hk]

/-! ## Kill detection -/

theorem mem_set_insert (h : Header) (p q : Vec2) :
    ∀ l : List Vec2, q ∈ set_insert h p l → q = p ∨ q ∈ l := by
  intro l
  induction l with
  | nil => intro hq; simpa [set_insert] using hq
  | cons r rs ih =>
    intro hq
    unfold set_insert at hq
    split at hq
    · simpa using hq
    · split at hq
      · rcases List.mem_cons.mp hq with e | e
        · exact Or.inr (by simp [e])
        · rcases ih e with e2 | e2
          · exact Or.inl e2
          · exact Or.inr (List.mem_cons_of_mem _ e2)
      · exact Or.inr hq

theorem set_insert_length_le (h : Header) (p : Vec2) :
    ∀ l : List Vec2, (set_insert h p l).length ≤ l.length + 1 := by
  intro l
  induction l with
  | nil => simp [set_insert]
  | cons r rs ih =>
    unfold set_insert
    split
    · simp
    · split
      · simpa using ih
      · simp

theorem mem_foldl_set_insert (h : Header) (q : Vec2) :
    ∀ (l acc : List Vec2), q ∈ l.foldl (fun acc p => set_insert h p acc) acc →
      q ∈ l ∨ q ∈ acc := by
  intro l
  induction l with
  | nil => intro acc hq; exact Or.inr (by simpa using hq)
  | cons r rs ih =>
    intro acc hq
    rw [List.foldl_cons] at hq
    rcases ih _ hq with e | e
    · exact Or.inl (List.mem_cons_of_mem _ e)
    · rcases mem_set_insert h r q acc e with e2 | e2
      · exact Or.inl (by simp [e2])
      · exact Or.inr e2

/-- What `get_killed_chesspiece` returns on the outcome of a line scan (no
window, or a window of three readable cells): only end cells of the window
whose value differs from `key`. -/
theorem get_killed_chesspiece_window (h : Header) (board : List ChessPieceType)
    (key : ChessPieceType) (cs : List Vec2)
    (hcs : cs = [] ∨ ∃ c0 c1 c2, cs = [c0, c1, c2] ∧
      ∀ c ∈ cs, ∃ t, readAt board (c.y * h.kCheckerboardColNum + c.x) = some t) :
    ∃ K, get_killed_chesspiece h board key cs = some K ∧ K.length ≤ 1 ∧
      ∀ p ∈ K, (∃ c0 c1 c2, cs = [c0, c1, c2] ∧ (p = c0 ∨ p = c2)) ∧
        ∃ t, readAt board (p.y * h.kCheckerboardColNum + p.x) = some t ∧ t ≠ key := by
  rcases hcs with rfl | ⟨c0, c1, c2, rfl, hr⟩
  · exact ⟨[], by simp [get_killed_chesspiece], by simp, by simp⟩
  · obtain ⟨t0, h0⟩ := hr c0 (by simp)
    obtain ⟨t1, h1⟩ := hr c1 (by simp)
    obtain ⟨t2, h2⟩ := hr c2 (by simp)
    refine ⟨_, get_killed_chesspiece_three h board key c0 c1 c2 t0 t1 t2 h0 h1 h2, ?_, ?_⟩
    · split_ifs <;> simp
    · intro p hp
      split_ifs at hp with e1 e2
      · have hp0 : p = c0 := by simpa using hp
        subst hp0
        exact ⟨⟨p, c1, c2, rfl, Or.inl rfl⟩, t0, h0, e1.1⟩
      · have hp2 : p = c2 := by simpa using hp
        subst hp2
        exact ⟨⟨c0, c1, p, rfl, Or.inr rfl⟩, t2, h2, e2.2.2⟩
      · simp at hp

/-- Summary of `check_kill_chesspiece` at an in-bounds position of a board
with one cell per position: it returns, the two scans return, and every
reported position is an end cell of one of the two windows, lies on the
board, is occupied and holds a value other than the key. -/
theorem check_kill_chesspiece_spec (h : Header) (board : List ChessPieceType) (pos : Vec2)
    (hlen : board.length = h.kCheckerboardRowNum * h.kCheckerboardColNum)
    (hin : is_in_checkerboard h pos = true) :
    ∃ key hs vs K,
      readAt board (pos.y * h.kCheckerboardColNum + pos.x) = some key ∧
      get_chesspieces_with_horizontal h board pos = some hs ∧
      get_chesspieces_with_vertical h board pos = some vs ∧
      check_kill_chesspiece h board pos = some K ∧
      K.length ≤ 2 ∧
      ∀ p ∈ K,
        ((∃ a : Int, hs = [⟨a, pos.y⟩, ⟨a + 1, pos.y⟩, ⟨a + 2, pos.y⟩] ∧
            (p = ⟨a, pos.y⟩ ∨ p = ⟨a + 2, pos.y⟩)) ∨
          (∃ a : Int, vs = [⟨pos.x, a⟩, ⟨pos.x, a + 1⟩, ⟨pos.x, a + 2⟩] ∧
            (p = ⟨pos.x, a⟩ ∨ p = ⟨pos.x, a + 2⟩))) ∧
        is_in_checkerboard h p = true ∧
        ∃ t, readAt board (p.y * h.kCheckerboardColNum + p.x) = some t ∧ t ≠ key ∧
          t ≠ NONE := by
  obtain ⟨hx0, hy0, hx1, hy1⟩ := (is_in_checkerboard_iff h pos).mp hin
  have hb := index_bounds h.kCheckerboardRowNum h.kCheckerboardColNum pos.x pos.y hx0 hx1
    hy0 hy1
  obtain ⟨key, hkey⟩ := readAt_of_lt board _ hb.1 (by rw [hlen]; exact hb.2)
  obtain ⟨hs, hhs, hsh⟩ := get_chesspieces_with_horizontal_spec h board pos hlen hin
  obtain ⟨vs, hvs, vsh⟩ := get_chesspieces_with_vertical_spec h board pos hlen hin
  have hsr : hs = [] ∨ ∃ c0 c1 c2, hs = [c0, c1, c2] ∧
      ∀ c ∈ hs, ∃ t, readAt board (c.y * h.kCheckerboardColNum + c.x) = some t := by
    rcases hsh with e | ⟨a, _, _, e, hocc⟩
    · exact Or.inl e
    · refine Or.inr ⟨_, _, _, e, ?_⟩
      intro c hc
      rw [e] at hc
      simp only [List.mem_cons, List.mem_singleton, List.not_mem_nil, or_false] at hc
      rcases hc with rfl | rfl | rfl
      · obtain ⟨t, ht, _⟩ := hocc a (le_refl a) (by omega); exact ⟨t, ht⟩
      · obtain ⟨t, ht, _⟩ := hocc (a + 1) (by omega) (by omega); exact ⟨t, ht⟩
      · obtain ⟨t, ht, _⟩ := hocc (a + 2) (by omega) (by omega); exact ⟨t, ht⟩
  have vsr : vs = [] ∨ ∃ c0 c1 c2, vs = [c0, c1, c2] ∧
      ∀ c ∈ vs, ∃ t, readAt board (c.y * h.kCheckerboardColNum + c.x) = some t := by
    rcases vsh with e | ⟨a, _, _, e, hocc⟩
    · exact Or.inl e
    · refine Or.inr ⟨_, _, _, e, ?_⟩
      intro c hc
      rw [e] at hc
      simp only [List.mem_cons, List.mem_singleton, List.not_mem_nil, or_false] at hc
      rcases hc with rfl | rfl | rfl
      · obtain ⟨t, ht, _⟩ := hocc a (le_refl a) (by omega); exact ⟨t, ht⟩
      · obtain ⟨t, ht, _⟩ := hocc (a + 1) (by omega) (by omega); exact ⟨t, ht⟩
      · obtain ⟨t, ht, _⟩ := hocc (a + 2) (by omega) (by omega); exact ⟨t, ht⟩
  obtain ⟨Kh, hKh, hKhl, hKhm⟩ := get_killed_chesspiece_window h board key hs hsr
  obtain ⟨Kv, hKv, hKvl, hKvm⟩ := get_killed_chesspiece_window h board key vs vsr
  refine ⟨key, hs, vs, Kv.foldl (fun acc p => set_insert h p acc) Kh, hkey, hhs, hvs,
    by simp [check_kill_chesspiece, hkey, hhs, hvs, hKh, hKv], ?_, ?_⟩
  · match Kv, hKvl with
    | [], _ => simp only [List.foldl_nil]; omega
    | [q], _ =>
      have := set_insert_length_le h q Kh
      simp only [List.foldl_cons, List.foldl_nil]
      omega
  · intro p hp
    rcases mem_foldl_set_insert h p Kv Kh hp with hpv | hph
    · obtain ⟨⟨c0, c1, c2, e, hpc⟩, t, ht, hne⟩ := hKvm p hpv
      rcases vsh with e0 | ⟨a, ha0, ha1, ea, hocc⟩
      · rw [e0] at e; simp at e
      · rw [ea] at e
        simp only [List.cons.injEq, and_true] at e
        obtain ⟨e0, e1, e2⟩ := e
        have hp2 : p = ⟨pos.x, a⟩ ∨ p = ⟨pos.x, a + 2⟩ := by
          rcases hpc with q | q
          · exact Or.inl (q.trans e0.symm)
          · exact Or.inr (q.trans e2.symm)
        refine ⟨Or.inr ⟨a, ea, hp2⟩, ?_, t, ht, hne, ?_⟩
        · rcases hp2 with rfl | rfl <;>
            simp [is_in_checkerboard] <;> omega
        · rcases hp2 with rfl | rfl
          · obtain ⟨t', ht', hn'⟩ := hocc a (le_refl a) (by omega)
            rw [ht] at ht'; cases ht'; exact hn'
          · obtain ⟨t', ht', hn'⟩ := hocc (a + 2) (by omega) (by omega)
            rw [ht] at ht'; cases ht'; exact hn'
    · obtain ⟨⟨c0, c1, c2, e, hpc⟩, t, ht, hne⟩ := hKhm p hph
      rcases hsh with e0 | ⟨a, ha0, ha1, ea, hocc⟩
      · rw [e0] at e; simp at e
      · rw [ea] at e
        simp only [List.cons.injEq, and_true] at e
        obtain ⟨e0, e1, e2⟩ := e
        have hp2 : p = ⟨a, pos.y⟩ ∨ p = ⟨a + 2, pos.y⟩ := by
          rcases hpc with q | q
          · exact Or.inl (q.trans e0.symm)
          · exact Or.inr (q.trans e2.symm)
        refine ⟨Or.inl ⟨a, ea, hp2⟩, ?_, t, ht, hne, ?_⟩
        · rcases hp2 with rfl | rfl <;>
            simp [is_in_checkerboard] <;> omega
        · rcases hp2 with rfl | rfl
          · obtain ⟨t', ht', hn'⟩ := hocc a (le_refl a) (by omega)
            rw [ht] at ht'; cases ht'; exact hn'
          · obtain ⟨t', ht', hn'⟩ := hocc (a + 2) (by omega) (by omega)
            rw [ht] at ht'; cases ht'; exact hn'

/-! ## Applying a request -/

theorem index_injective (C : Nat) (x y x' y' : Int) (hx0 : 0 ≤ x) (hx1 : x < C)
    (hx0' : 0 ≤ x') (hx1' : x' < C) (he : y * C + x = y' * C + x') : x = x' ∧ y = y' := by
  have hC : (0 : Int) ≤ C := Int.ofNat_nonneg C
  have hy : y = y' := by
    rcases lt_trichotomy y y' with hlt | heq | hgt
    · have h1 : y + 1 ≤ y' := by omega
      have h2 : (y + 1) * C ≤ y' * C := Int.mul_le_mul_of_nonneg_right h1 hC
      linarith
    · exact heq
    · have h1 : y' + 1 ≤ y := by omega
      have h2 : (y' + 1) * C ≤ y * C := Int.mul_le_mul_of_nonneg_right h1 hC
      linarith
  subst hy
  exact ⟨by linarith, rfl⟩

theorem kill_board_length (h : Header) :
    ∀ (K : List Vec2) (board : List ChessPieceType), (kill_board h K board).length = board.length := by
  intro K
  induction K with
  | nil => intro board; rfl
  | cons p rest ih => intro board; simp [kill_board, ih]

theorem readAt_kill_board_other (h : Header) (j : Int) (hj : 0 ≤ j) :
    ∀ (K : List Vec2) (board : List ChessPieceType),
      (∀ p ∈ K, 0 ≤ p.y * h.kCheckerboardRowNum + p.x ∧ p.y * h.kCheckerboardRowNum + p.x ≠ j) →
      readAt (kill_board h K board) j = readAt board j := by
  intro K
  induction K with
  | nil => intro board _; rfl
  | cons p rest ih =>
    intro board hK
    have hp := hK p (by simp)
    rw [kill_board, ih _ (fun q hq => hK q (List.mem_cons_of_mem _ hq)),
      readAt_set_other board _ j NONE hp.1 hj hp.2]

theorem readAt_kill_board_mem (h : Header) :
    ∀ (K : List Vec2) (board : List ChessPieceType),
      (∀ p ∈ K, 0 ≤ p.y * h.kCheckerboardRowNum + p.x ∧
        p.y * h.kCheckerboardRowNum + p.x < board.length) →
      ∀ p ∈ K, readAt (kill_board h K board) (p.y * h.kCheckerboardRowNum + p.x) = some NONE := by
  intro K
  induction K with
  | nil => intro board _ p hp; simp at hp
  | cons q rest ih =>
    intro board hK p hp
    have hq := hK q (by simp)
    have hrest : ∀ r ∈ rest, 0 ≤ r.y * h.kCheckerboardRowNum + r.x ∧
        r.y * h.kCheckerboardRowNum + r.x <
          ((board.set (q.y * h.kCheckerboardRowNum + q.x).toNat NONE).length : Int) := by
      intro r hr
      simpa using hK r (List.mem_cons_of_mem _ hr)
    rw [kill_board]
    by_cases hex : ∃ r ∈ rest, r.y * h.kCheckerboardRowNum + r.x = p.y * h.kCheckerboardRowNum + p.x
    · obtain ⟨r, hr, e⟩ := hex
      rw [← e]
      exact ih _ hrest r hr
    · have hpq : p = q := by
        rcases List.mem_cons.mp hp with e | e
        · exact e
        · exact absurd ⟨p, e, rfl⟩ hex
      subst hpq
      rw [readAt_kill_board_other h _ hq.1 rest _ (fun r hr =>
        ⟨(hrest r hr).1, fun e => hex ⟨r, hr, e⟩⟩)]
      exact readAt_set_same board _ NONE hq.1 hq.2

theorem kill_loop_spec (h : Header) (target : Vec2) :
    ∀ (K : List Vec2) (s : GameLogic),
      (∀ p ∈ K, 0 ≤ p.y * h.kCheckerboardRowNum + p.x ∧
        p.y * h.kCheckerboardRowNum + p.x < s.checkerboard_.length) →
      kill_loop h target K s = some
        { s with
          checkerboard_ := kill_board h K s.checkerboard_
          action_queue_ := s.action_queue_ ++
            K.map fun p => ⟨ActionType.KILLED, NONE, target, p⟩ } := by
  intro K
  induction K with
  | nil => intro s _; simp [kill_loop, kill_board]
  | cons p rest ih =>
    intro s hK
    have hp := hK p (by simp)
    rw [kill_loop, writeAt_of_lt _ _ _ hp.1 hp.2]
    simp only [Option.some_bind]
    rw [ih]
    · simp [add_action, kill_board]
    · intro r hr
      simpa [add_action] using hK r (List.mem_cons_of_mem _ hr)

theorem swap_cells_eq (board : List ChessPieceType) (i j : Int) (a b : ChessPieceType)
    (ha : readAt board i = some a) (hb : readAt board j = some b) :
    swap_cells board i j = some ((board.set i.toNat b).set j.toNat a) := by
  have hi := readAt_some_bounds ha
  have hj := readAt_some_bounds hb
  rw [swap_cells, ha, hb]
  simp only [Option.some_bind]
  rw [writeAt_of_lt _ _ _ hi.1 hi.2]
  simp only [Option.some_bind]
  rw [writeAt_of_lt _ _ _ hj.1 (by simpa using hj.2)]

theorem cell_at_in_bounds (h : Header) (board : List ChessPieceType) (pos : Vec2)
    (hlen : board.length = h.kCheckerboardRowNum * h.kCheckerboardColNum)
    (hin : is_in_checkerboard h pos = true) :
    0 ≤ pos.y * h.kCheckerboardColNum + pos.x ∧
      pos.y * h.kCheckerboardColNum + pos.x < board.length := by
  obtain ⟨hx0, hy0, hx1, hy1⟩ := (is_in_checkerboard_iff h pos).mp hin
  have hb := index_bounds h.kCheckerboardRowNum h.kCheckerboardColNum pos.x pos.y hx0 hx1
    hy0 hy1
  exact ⟨hb.1, by rw [hlen]; exact hb.2⟩

theorem index_ne_of_ne (h : Header) (p q : Vec2) (hp : is_in_checkerboard h p = true)
    (hq : is_in_checkerboard h q = true) (hne : p ≠ q) :
    p.y * h.kCheckerboardColNum + p.x ≠ q.y * h.kCheckerboardColNum + q.x := by
  obtain ⟨px0, _, px1, _⟩ := (is_in_checkerboard_iff h p).mp hp
  obtain ⟨qx0, _, qx1, _⟩ := (is_in_checkerboard_iff h q).mp hq
  intro e
  obtain ⟨e1, e2⟩ := index_injective h.kCheckerboardColNum p.x p.y q.x q.y px0 px1 qx0 qx1 e
  apply hne
  cases p; cases q
  simp_all

/-- What the guard of `update` establishes for in-bounds positions of a square
board with one cell per position. -/
theorem move_accepted_true (h : Header) (s : GameLogic) (source target : Vec2)
    (hsq : h.kCheckerboardRowNum = h.kCheckerboardColNum) (hwf : WellFormed h s)
    (hins : is_in_checkerboard h source = true) (hint : is_in_checkerboard h target = true)
    (hacc : move_accepted h s source target = some true) :
    ∃ t, cell_at h s.checkerboard_ source = some t ∧ t ≠ NONE ∧
      cell_at h s.checkerboard_ target = some NONE ∧ source ≠ target ∧
      is_adjacent h source target = true ∧ s.standby_type_ ≠ NONE := by
  obtain ⟨a, ha⟩ := readAt_of_lt _ _ (cell_at_in_bounds h _ source hwf hins).1
    (cell_at_in_bounds h _ source hwf hins).2
  obtain ⟨b, hb⟩ := readAt_of_lt _ _ (cell_at_in_bounds h _ target hwf hint).1
    (cell_at_in_bounds h _ target hwf hint).2
  unfold move_accepted at hacc
  by_cases hst : source = target
  · simp [hst] at hacc
  · by_cases han : a = NONE
    · simp [hst, is_valid_chess_piece, hins, hint, hsq, ha, hb, han] at hacc
    · by_cases hbn : b = NONE
      · by_cases hadj : is_adjacent h source target = true
        · simp [hst, is_valid_chess_piece, hins, hint, hsq, ha, hb, han, hbn, hadj] at hacc
          exact ⟨a, ha, han, by rw [cell_at, hb, hbn], hst, hadj, fun e => hacc e.symm⟩
        · simp [hst, is_valid_chess_piece, hins, hint, hsq, ha, hb, han, hbn, hadj] at hacc
      · simp [hst, is_valid_chess_piece, hins, hint, hsq, ha, hb, han, hbn] at hacc

/-- The effect of one accepted request with in-bounds positions on a square
board with one cell per position. -/
theorem update_front_accepted (h : Header) (s : GameLogic) (source target : Vec2)
    (hsq : h.kCheckerboardRowNum = h.kCheckerboardColNum) (hwf : WellFormed h s)
    (hins : is_in_checkerboard h source = true) (hint : is_in_checkerboard h target = true)
    (hacc : move_accepted h s source target = some true) :
    ∃ t swapped K,
      cell_at h s.checkerboard_ source = some t ∧
      swap_cells s.checkerboard_ (source.y * h.kCheckerboardRowNum + source.x)
        (target.y * h.kCheckerboardRowNum + target.x) = some swapped ∧
      swapped.length = s.checkerboard_.length ∧
      (∀ p, is_in_checkerboard h p = true → cell_at h swapped p =
        if p = source then some NONE else if p = target then some t
        else cell_at h s.checkerboard_ p) ∧
      check_kill_chesspiece h swapped target = some K ∧
      K.length ≤ 2 ∧
      (∀ p ∈ K, is_in_checkerboard h p = true ∧ p ≠ source ∧ p ≠ target ∧
        ∃ tp, cell_at h swapped p = some tp ∧ tp ≠ t ∧ tp ≠ NONE) ∧
      update_front h s source target = some
        { checkerboard_ := kill_board h K swapped
          standby_type_ := t
          action_queue_ := s.action_queue_ ++ [⟨ActionType.MOVED, t, source, target⟩] ++
            K.map (fun p => ⟨ActionType.KILLED, NONE, target, p⟩) ++
            [⟨ActionType.STANDBY, t, Vec2.zero, Vec2.zero⟩]
          move_queue_ := s.move_queue_
          action_callback_list_ := s.action_callback_list_ } := by
  obtain ⟨t, ht, htn, htg, hst, _, _⟩ := move_accepted_true h s source target hsq hwf hins hint hacc
  have hsb := cell_at_in_bounds h _ source hwf hins
  have htb := cell_at_in_bounds h _ target hwf hint
  have hidx := index_ne_of_ne h source target hins hint hst
  unfold cell_at at ht htg
  have hswap := swap_cells_eq s.checkerboard_ _ _ t NONE ht htg
  have hlen : ((s.checkerboard_.set (source.y * h.kCheckerboardColNum + source.x).toNat NONE).set
      (target.y * h.kCheckerboardColNum + target.x).toNat t).length = s.checkerboard_.length := by
    simp
  have hcell : ∀ p, is_in_checkerboard h p = true →
      cell_at h ((s.checkerboard_.set (source.y * h.kCheckerboardColNum + source.x).toNat NONE).set
        (target.y * h.kCheckerboardColNum + target.x).toNat t) p =
      if p = source then some NONE else if p = target then some t
        else cell_at h s.checkerboard_ p := by
    intro p hp
    have hpb := cell_at_in_bounds h _ p hwf hp
    unfold cell_at
    by_cases e1 : p = source
    · subst e1
      rw [readAt_set_other _ _ _ _ htb.1 hpb.1 (Ne.symm hidx),
        readAt_set_same _ _ _ hsb.1 hsb.2]
      simp
    · by_cases e2 : p = target
      · subst e2
        rw [readAt_set_same _ _ _ htb.1 (by simpa using htb.2)]
        simp [e1]
      · rw [readAt_set_other _ _ _ _ htb.1 hpb.1
            (Ne.symm (index_ne_of_ne h p target hp hint e2)),
          readAt_set_other _ _ _ _ hsb.1 hpb.1
            (Ne.symm (index_ne_of_ne h p source hp hins e1))]
        simp [e1, e2]
  generalize (s.checkerboard_.set (source.y * h.kCheckerboardColNum + source.x).toNat NONE).set
    (target.y * h.kCheckerboardColNum + target.x).toNat t = swapped at hswap hlen hcell
  obtain ⟨key, hs, vs, K, hkey, _, _, hK, hKl, hKm⟩ := check_kill_chesspiece_spec h swapped
    target (hlen.trans hwf) hint
  have hkt : key = t := by
    have := hcell target hint
    unfold cell_at at this
    rw [hkey] at this
    simpa [Ne.symm hst] using this
  subst hkt
  have hKfacts : ∀ p ∈ K, is_in_checkerboard h p = true ∧ p ≠ source ∧ p ≠ target ∧
      ∃ tp, cell_at h swapped p = some tp ∧ tp ≠ key ∧ tp ≠ NONE := by
    intro p hp
    obtain ⟨_, hpin, tp, htp, hne, hnn⟩ := hKm p hp
    refine ⟨hpin, ?_, ?_, tp, htp, hne, hnn⟩
    · intro e
      have := hcell p hpin
      unfold cell_at at this
      rw [htp] at this
      simp [e] at this
      exact hnn this
    · intro e
      subst e
      rw [hkey] at htp
      exact hne (Option.some.inj htp).symm
  refine ⟨key, swapped, K, ht, ?_, hlen, hcell, hK, hKl, hKfacts, ?_⟩
  · simpa [hsq] using hswap
  · have hkl := kill_loop_spec h target K
      (add_action { s with checkerboard_ := swapped } ActionType.MOVED key source target)
      (by
        intro p hp
        have hpb := cell_at_in_bounds h _ p hwf (hKfacts p hp).1
        simpa [add_action, hsq, hlen] using hpb)
    have hfinal : readAt (kill_board h K swapped)
        (target.y * h.kCheckerboardColNum + target.x) = some key := by
      rw [readAt_kill_board_other h _ htb.1 K _ (by
        intro p hp
        obtain ⟨hpin, _, hpt, _⟩ := hKfacts p hp
        have hpb := cell_at_in_bounds h _ p hwf hpin
        rw [hsq]
        exact ⟨hpb.1, index_ne_of_ne h p target hpin hint hpt⟩)]
      exact hkey
    simp only [update_front, hacc, Option.some_bind, if_true, apply_move, hsq, hswap, hkey,
      add_action, hK]
    simp only [add_action, hsq] at hkl
    rw [hkl]
    simp only [Option.some_bind, hfinal]

theorem cell_at_kill_board (h : Header) (board : List ChessPieceType) (K : List Vec2)
    (hsq : h.kCheckerboardRowNum = h.kCheckerboardColNum)
    (hlen : board.length = h.kCheckerboardRowNum * h.kCheckerboardColNum)
    (hK : ∀ q ∈ K, is_in_checkerboard h q = true) (p : Vec2)
    (hp : is_in_checkerboard h p = true) :
    cell_at h (kill_board h K board) p = if p ∈ K then some NONE else cell_at h board p := by
  have hpb := cell_at_in_bounds h board p hlen hp
  unfold cell_at
  by_cases hm : p ∈ K
  · have := readAt_kill_board_mem h K board (by
      intro q hq
      have hqb := cell_at_in_bounds h board q hlen (hK q hq)
      rw [hsq]
      exact hqb) p hm
    rw [hsq] at this
    simp [hm, this]
  · rw [readAt_kill_board_other h _ hpb.1 K board (by
      intro q hq
      have hqb := cell_at_in_bounds h board q hlen (hK q hq)
      rw [hsq]
      refine ⟨hqb.1, index_ne_of_ne h q p (hK q hq) hp ?_⟩
      intro e
      exact hm (e ▸ hq))]
    simp [hm]

theorem update_single (h : Header) (s : GameLogic) (source target : Vec2)
    (hq : s.move_queue_ = [⟨source, target⟩]) :
    update h s =
      (update_front h s source target).bind fun s1 => some { s1 with move_queue_ := [] } := by
  have hs : { s with move_queue_ := [⟨source, target⟩] } = s := by
    cases s
    simp only at hq
    subst hq
    rfl
  simp [update, hq, update_loop, hs]

/-- The two cell accessors agree: `is_valid_chess_piece` holds exactly when
`get_chesspiece_type` is not `NONE`, and neither fails on a square board with
one cell per position. -/
theorem get_chesspiece_type_spec (h : Header) (s : GameLogic) (pos : Vec2)
    (hsq : h.kCheckerboardRowNum = h.kCheckerboardColNum) (hwf : WellFormed h s) :
    ∃ t, get_chesspiece_type h s pos = some t ∧
      is_valid_chess_piece h s pos = some (decide (t ≠ NONE)) ∧
      (is_in_checkerboard h pos = true → cell_at h s.checkerboard_ pos = some t) ∧
      (is_in_checkerboard h pos = false → t = NONE) := by
  by_cases hin : is_in_checkerboard h pos = true
  · obtain ⟨a, ha⟩ := readAt_of_lt _ _ (cell_at_in_bounds h _ pos hwf hin).1
      (cell_at_in_bounds h _ pos hwf hin).2
    refine ⟨a, ?_, ?_, fun _ => ha, fun e => by simp [hin] at e⟩
    · by_cases han : a = NONE <;>
        simp [get_chesspiece_type, is_valid_chess_piece, hin, hsq, ha, han]
    · simp [is_valid_chess_piece, hin, hsq, ha]
  · refine ⟨NONE, ?_, ?_, fun e => absurd e hin, fun _ => rfl⟩
    · simp [get_chesspiece_type, is_valid_chess_piece, hin]
    · simp [is_valid_chess_piece, hin]

/-- A request for which one of the first four conditions of the guard fails is
dropped. -/
theorem update_front_dropped (h : Header) (s : GameLogic) (source target : Vec2)
    (hsq : h.kCheckerboardRowNum = h.kCheckerboardColNum) (hwf : WellFormed h s)
    (hinv : source = target ∨ get_chesspiece_type h s source = some NONE ∨
      (∃ t, get_chesspiece_type h s target = some t ∧ t ≠ NONE) ∨
      is_adjacent h source target = false) :
    update_front h s source target = some s := by
  obtain ⟨a, ha, hva, _⟩ := get_chesspiece_type_spec h s source hsq hwf
  obtain ⟨b, hb, hvb, _⟩ := get_chesspiece_type_spec h s target hsq hwf
  by_cases hst : source = target
  · simp [update_front, move_accepted, hst]
  · by_cases han : a = NONE
    · simp [update_front, move_accepted, hst, hva, han]
    · by_cases hbn : b = NONE
      · have hadj : is_adjacent h source target = false := by
          rcases hinv with e | e | ⟨t, e, hne⟩ | e
          · exact absurd e hst
          · rw [ha] at e
            exact absurd (Option.some.inj e) han
          · rw [hb] at e
            exact absurd ((Option.some.inj e).symm.trans hbn) hne
          · exact e
        simp [update_front, move_accepted, hst, hva, hvb, han, hbn, hadj]
      · simp [update_front, move_accepted, hst, hva, hvb, han, hbn]

/-! ## Adjacency and the cell accessor -/

theorem is_adjacent_iff (h : Header) (a b : Vec2) :
    is_adjacent h a b = true ↔
      is_in_checkerboard h a = true ∧ |b.x - a.x| + |b.y - a.y| = 1 := by
  simp [is_adjacent]

/-- C1. `is_adjacent` never checks its second argument: on the 4 x 4 board, with
`a = (0, 0)` on the board and `b = (-1, 0)` off it, `is_adjacent a b` is true and
`is_adjacent b a` is false, so the predicate is neither symmetric nor restricted to
pairs of in-bounds positions. -/
theorem is_adjacent_second_unchecked :
    is_in_checkerboard (square 4) ⟨0, 0⟩ = true ∧
    is_in_checkerboard (square 4) ⟨-1, 0⟩ = false ∧
    is_adjacent (square 4) ⟨0, 0⟩ ⟨-1, 0⟩ = true ∧
    is_adjacent (square 4) ⟨-1, 0⟩ ⟨0, 0⟩ = false := by
  decide

/-- C8. `get_chesspiece_type` indexes the board with the row count as stride. On a
board of 2 rows and 3 columns holding `_ _ B / W _ _`, the in-bounds position
column 0, row 1 is cell `1 * 3 + 0 = 3`, which holds `WHITE` and is what
`visit_checkerboard` reports there, while `get_chesspiece_type` returns the `BLACK` of
cell `1 * 2 + 0 = 2`; on a board of 3 rows and 2 columns the in-bounds position
column 1, row 2 makes it read cell `2 * 3 + 1 = 7` of a 6-cell board. -/
theorem get_chesspiece_type_row_stride :
    is_in_checkerboard ⟨2, 3, lex_less⟩ ⟨0, 1⟩ = true ∧
    (init [NONE, NONE, BLACK, WHITE, NONE, NONE]).checkerboard_[1 * 3 + 0]? = some WHITE ∧
    (⟨0, 1⟩, WHITE) ∈ visit_checkerboard ⟨2, 3, lex_less⟩
      (init [NONE, NONE, BLACK, WHITE, NONE, NONE]) ∧
    get_chesspiece_type ⟨2, 3, lex_less⟩ (init [NONE, NONE, BLACK, WHITE, NONE, NONE])
      ⟨0, 1⟩ = some BLACK ∧
    is_in_checkerboard ⟨3, 2, lex_less⟩ ⟨1, 2⟩ = true ∧
    get_chesspiece_type ⟨3, 2, lex_less⟩ (init [NONE, NONE, NONE, NONE, NONE, WHITE])
      ⟨1, 2⟩ = none := by
  decide

/-! ## Selection among three candidates -/

/-- C5. For three candidates `c0, c1, c2` whose cells hold `t0, t1, t2`,
`get_killed_chesspiece` returns `{c0}` when `c1` and `c2` hold the key and `c0` does
not, `{c2}` when `c0` and `c1` hold the key and `c2` does not, and the empty set in
every other case; for a candidate list whose size is not 3 it returns the empty
set. -/
theorem get_killed_chesspiece_cases (h : Header) (board : List ChessPieceType)
    (key : ChessPieceType) (c0 c1 c2 : Vec2) (t0 t1 t2 : ChessPieceType)
    (h0 : cell_at h board c0 = some t0) (h1 : cell_at h board c1 = some t1)
    (h2 : cell_at h board c2 = some t2) :
    get_killed_chesspiece h board key [c0, c1, c2] =
        some (if t0 ≠ key ∧ t1 = key ∧ t2 = key then [c0]
          else if t0 = key ∧ t1 = key ∧ t2 ≠ key then [c2] else []) ∧
      ∀ cs : List Vec2, cs.length ≠ 3 → get_killed_chesspiece h board key cs = some [] :=
  ⟨get_killed_chesspiece_three h board key c0 c1 c2 t0 t1 t2 h0 h1 h2,
    get_killed_chesspiece_not_three h board key⟩

/-- C5, instances: in the row `W B B` with key `B` the cell of index 0 is killed; in
the row `B B B` nothing is. -/
theorem get_killed_chesspiece_cases_witness :
    get_killed_chesspiece row3 [WHITE, BLACK, BLACK] BLACK [⟨0, 0⟩, ⟨1, 0⟩, ⟨2, 0⟩] =
        some [⟨0, 0⟩] ∧
      get_killed_chesspiece row3 [BLACK, BLACK, BLACK] BLACK [⟨0, 0⟩, ⟨1, 0⟩, ⟨2, 0⟩] =
        some [] :=
  ⟨(get_killed_chesspiece_cases row3 [WHITE, BLACK, BLACK] BLACK ⟨0, 0⟩ ⟨1, 0⟩ ⟨2, 0⟩
      WHITE BLACK BLACK (by decide) (by decide) (by decide)).1,
    (get_killed_chesspiece_cases row3 [BLACK, BLACK, BLACK] BLACK ⟨0, 0⟩ ⟨1, 0⟩ ⟨2, 0⟩
      BLACK BLACK BLACK (by decide) (by decide) (by decide)).1⟩

/-- C6, as stated, fails: in the row `B W B` with key `B` exactly two of the three
occupied candidates hold the key, and no kill is reported. -/
theorem no_kill_with_two_matches :
    [BLACK, WHITE, BLACK].count BLACK = 2 ∧
    count_key row3 [BLACK, WHITE, BLACK] BLACK [⟨0, 0⟩, ⟨1, 0⟩, ⟨2, 0⟩] 0 = some 2 ∧
    get_killed_chesspiece row3 [BLACK, WHITE, BLACK] BLACK [⟨0, 0⟩, ⟨1, 0⟩, ⟨2, 0⟩] =
      some [] := by
  decide

/-- C6, amended. For three candidates whose cells hold `t0, t1, t2`,
`get_killed_chesspiece` returns a non-empty set if and only if exactly two of the
three hold the key and the middle one is among them. -/
theorem kill_fires_iff (h : Header) (board : List ChessPieceType)
    (key : ChessPieceType) (c0 c1 c2 : Vec2) (t0 t1 t2 : ChessPieceType)
    (h0 : cell_at h board c0 = some t0) (h1 : cell_at h board c1 = some t1)
    (h2 : cell_at h board c2 = some t2) :
    ∃ K, get_killed_chesspiece h board key [c0, c1, c2] = some K ∧
      (K ≠ [] ↔ [t0, t1, t2].count key = 2 ∧ t1 = key) := by
  refine ⟨_, get_killed_chesspiece_three h board key c0 c1 c2 t0 t1 t2 h0 h1 h2, ?_⟩
  by_cases e0 : t0 = key <;> by_cases e1 : t1 = key <;> by_cases e2 : t2 = key <;>
    simp [e0, e1, e2, List.count_cons]

/-- C6, amended, instance: the row `W B B` with key `B` reports a kill. -/
theorem kill_fires_iff_witness :
    ∃ K, get_killed_chesspiece row3 [WHITE, BLACK, BLACK] BLACK [⟨0, 0⟩, ⟨1, 0⟩, ⟨2, 0⟩] =
        some K ∧
      (K ≠ [] ↔ [WHITE, BLACK, BLACK].count BLACK = 2 ∧ BLACK = BLACK) :=
  kill_fires_iff row3 [WHITE, BLACK, BLACK] BLACK ⟨0, 0⟩ ⟨1, 0⟩ ⟨2, 0⟩ WHITE BLACK BLACK
    (by decide) (by decide) (by decide)

/-! ## Kill detection never reports a middle cell -/

/-- C7. At an in-bounds position of a board with one cell per position,
`check_kill_chesspiece` returns, and no position of its result is the middle cell of
the window found on the row or the middle cell of the window found on the column. -/
theorem check_kill_never_middle (h : Header) (board : List ChessPieceType) (pos : Vec2)
    (hlen : board.length = h.kCheckerboardRowNum * h.kCheckerboardColNum)
    (hin : is_in_checkerboard h pos = true) :
    ∃ hs vs K,
      get_chesspieces_with_horizontal h board pos = some hs ∧
      get_chesspieces_with_vertical h board pos = some vs ∧
      check_kill_chesspiece h board pos = some K ∧
      ∀ p ∈ K, hs[1]? ≠ some p ∧ vs[1]? ≠ some p := by
  obtain ⟨key, hs, vs, K, hkey, hhs, hvs, hK, _, hKm⟩ :=
    check_kill_chesspiece_spec h board pos hlen hin
  obtain ⟨hs', hhs', hsh⟩ := get_chesspieces_with_horizontal_spec h board pos hlen hin
  obtain ⟨vs', hvs', vsh⟩ := get_chesspieces_with_vertical_spec h board pos hlen hin
  obtain rfl : hs' = hs := Option.some.inj (hhs'.symm.trans hhs)
  obtain rfl : vs' = vs := Option.some.inj (hvs'.symm.trans hvs)
  refine ⟨hs', vs', K, hhs, hvs, hK, ?_⟩
  intro p hp
  obtain ⟨horig, _, t, ht, hne, _⟩ := hKm p hp
  have hpos : p ≠ pos := by
    intro e
    subst e
    rw [hkey] at ht
    exact hne (Option.some.inj ht).symm
  constructor
  · rcases hsh with e | ⟨a, _, _, e, _⟩
    · simp [e]
    · rw [e]
      simp only [List.getElem?_cons_succ, List.getElem?_cons_zero, ne_eq, Option.some.injEq]
      intro hmid
      rcases horig with ⟨a', e', hp'⟩ | ⟨b, _, hp'⟩
      · rw [e] at e'
        simp only [List.cons.injEq, Vec2.mk.injEq, and_true] at e'
        rcases hp' with q | q <;> rw [q] at hmid <;> simp at hmid <;> omega
      · apply hpos
        rcases hp' with q | q <;> rw [q] at hmid <;> simp at hmid <;>
          (cases pos; simp_all)
  · rcases vsh with e | ⟨b, _, _, e, _⟩
    · simp [e]
    · rw [e]
      simp only [List.getElem?_cons_succ, List.getElem?_cons_zero, ne_eq, Option.some.injEq]
      intro hmid
      rcases horig with ⟨a, _, hp'⟩ | ⟨b', e', hp'⟩
      · apply hpos
        rcases hp' with q | q <;> rw [q] at hmid <;> simp at hmid <;>
          (cases pos; simp_all)
      · rw [e] at e'
        simp only [List.cons.injEq, Vec2.mk.injEq, and_true] at e'
        rcases hp' with q | q <;> rw [q] at hmid <;> simp at hmid <;> omega

/-- C7, instance: on the board `W B B / _ _ _ / _ _ _` with trigger at column 2 of
row 0, the window is the whole row, its middle cell is column 1, and the reported
kill is column 0. -/
theorem check_kill_never_middle_witness :
    get_chesspieces_with_horizontal (square 3)
        [WHITE, BLACK, BLACK, NONE, NONE, NONE, NONE, NONE, NONE] ⟨2, 0⟩ =
      some [⟨0, 0⟩, ⟨1, 0⟩, ⟨2, 0⟩] ∧
    check_kill_chesspiece (square 3)
        [WHITE, BLACK, BLACK, NONE, NONE, NONE, NONE, NONE, NONE] ⟨2, 0⟩ = some [⟨0, 0⟩] ∧
    ∃ hs vs K,
      get_chesspieces_with_horizontal (square 3)
        [WHITE, BLACK, BLACK, NONE, NONE, NONE, NONE, NONE, NONE] ⟨2, 0⟩ = some hs ∧
      get_chesspieces_with_vertical (square 3)
        [WHITE, BLACK, BLACK, NONE, NONE, NONE, NONE, NONE, NONE] ⟨2, 0⟩ = some vs ∧
      check_kill_chesspiece (square 3)
        [WHITE, BLACK, BLACK, NONE, NONE, NONE, NONE, NONE, NONE] ⟨2, 0⟩ = some K ∧
      ∀ p ∈ K, hs[1]? ≠ some p ∧ vs[1]? ≠ some p :=
  ⟨by decide, by decide,
    check_kill_never_middle (square 3)
      [WHITE, BLACK, BLACK, NONE, NONE, NONE, NONE, NONE, NONE] ⟨2, 0⟩ (by decide)
      (by decide)⟩

/-! ## The update step -/

/-- The requests that the guard of `update` does reject: on a square board with one
cell per position, a single queued request `(source, target)` with `source = target`,
or no piece at `source`, or a piece at `target`, or `is_adjacent source target` false,
is dropped; the queue is emptied and the board, the standby type and the action log
are what they were. -/
theorem update_drops_invalid_request (h : Header) (s : GameLogic) (source target : Vec2)
    (hsq : h.kCheckerboardRowNum = h.kCheckerboardColNum) (hwf : WellFormed h s)
    (hq : s.move_queue_ = [⟨source, target⟩])
    (hinv : source = target ∨ get_chesspiece_type h s source = some NONE ∨
      (∃ t, get_chesspiece_type h s target = some t ∧ t ≠ NONE) ∨
      is_adjacent h source target = false) :
    update h s = some { s with move_queue_ := [] } := by
  rw [update_single h s source target hq,
    update_front_dropped h s source target hsq hwf hinv]
  rfl

/-- A dropped request: with a lone black piece on the 4 x 4 board, the request from the
empty cell at column 1 of row 0 to column 0 of row 0 logs nothing and leaves the board
unchanged. -/
theorem update_drops_invalid_request_witness :
    WellFormed (square 4) (move_chess_piece (init board_lone_black) ⟨1, 0⟩ ⟨0, 0⟩) ∧
    get_chesspiece_type (square 4) (move_chess_piece (init board_lone_black) ⟨1, 0⟩ ⟨0, 0⟩)
      ⟨1, 0⟩ = some NONE ∧
    update (square 4) (move_chess_piece (init board_lone_black) ⟨1, 0⟩ ⟨0, 0⟩) =
      some { move_chess_piece (init board_lone_black) ⟨1, 0⟩ ⟨0, 0⟩ with move_queue_ := [] } :=
  ⟨by decide, by decide,
    update_drops_invalid_request (square 4)
      (move_chess_piece (init board_lone_black) ⟨1, 0⟩ ⟨0, 0⟩) ⟨1, 0⟩ ⟨0, 0⟩ rfl
      (by decide) rfl (Or.inr (Or.inl (by decide)))⟩

/-- C2. A request that is invalid only because source and target are not adjacent is
not always dropped. On the 4 x 4 board with a black piece at column 3 of row 0 and a
white piece at column 0 of row 1, the request from `(3, 0)` to the off-board position
`(4, 0)` has distinct positions, a piece at its source and no piece at its target, and
the two positions are not adjacent, the target being off the board; `is_adjacent`
returns true for it, the guard of `update` accepts it, the swap exchanges cells 3 and
4 of the board, and `update` does not return the state with the request dropped. On
the 5 x 5 board `board5_edge` the request from `(4, 0)` to the off-board position
`(5, 0)` runs to completion: the black piece ends in cell 5, which is column 0 of
row 1, and `MOVED` and `STANDBY` are logged. -/
theorem update_applies_off_board_neighbour :
    ((⟨3, 0⟩ : Vec2) ≠ ⟨4, 0⟩ ∧
      get_chesspiece_type (square 4) (init board_edge_bw) ⟨3, 0⟩ = some BLACK ∧
      get_chesspiece_type (square 4) (init board_edge_bw) ⟨4, 0⟩ = some NONE ∧
      is_in_checkerboard (square 4) ⟨4, 0⟩ = false ∧
      spec_is_adjacent (square 4) ⟨3, 0⟩ ⟨4, 0⟩ = false ∧
      is_adjacent (square 4) ⟨3, 0⟩ ⟨4, 0⟩ = true ∧
      move_accepted (square 4) (move_chess_piece (init board_edge_bw) ⟨3, 0⟩ ⟨4, 0⟩)
        ⟨3, 0⟩ ⟨4, 0⟩ = some true ∧
      swap_cells board_edge_bw (0 * 4 + 3) (0 * 4 + 4) =
        some [NONE, NONE, NONE, WHITE, BLACK, NONE, NONE, NONE, NONE, NONE, NONE, NONE,
          NONE, NONE, NONE, NONE] ∧
      update (square 4) (move_chess_piece (init board_edge_bw) ⟨3, 0⟩ ⟨4, 0⟩) ≠
        some { move_chess_piece (init board_edge_bw) ⟨3, 0⟩ ⟨4, 0⟩ with
          move_queue_ := [] }) ∧
    (spec_is_adjacent (square 5) ⟨4, 0⟩ ⟨5, 0⟩ = false ∧
      update (square 5) (move_chess_piece (init board5_edge) ⟨4, 0⟩ ⟨5, 0⟩) =
        some
          { checkerboard_ :=
              [NONE, NONE, NONE, NONE, NONE, BLACK, NONE, NONE, NONE, NONE,
                WHITE, NONE, NONE, NONE, NONE, WHITE, NONE, NONE, NONE, NONE,
                NONE, NONE, NONE, NONE, NONE]
            standby_type_ := BLACK
            action_queue_ :=
              [⟨ActionType.MOVED, BLACK, ⟨4, 0⟩, ⟨5, 0⟩⟩,
                ⟨ActionType.STANDBY, BLACK, Vec2.zero, Vec2.zero⟩]
            move_queue_ := []
            action_callback_list_ := [] }) := by
  decide

/-- C3, as stated, fails: on the 3 x 3 board `W B _ / _ _ B / _ _ _` the request from
column 2 of row 1 to column 2 of row 0 is accepted, and after `update` the cell at
column 0 of row 0, which is neither the source nor the target, has changed from
`WHITE` to `NONE`. -/
theorem update_changes_a_third_cell :
    move_accepted (square 3) (move_chess_piece (init board_wb_b) ⟨2, 1⟩ ⟨2, 0⟩)
      ⟨2, 1⟩ ⟨2, 0⟩ = some true ∧
    cell_at (square 3) (move_chess_piece (init board_wb_b) ⟨2, 1⟩ ⟨2, 0⟩).checkerboard_
      ⟨0, 0⟩ = some WHITE ∧
    (update (square 3) (move_chess_piece (init board_wb_b) ⟨2, 1⟩ ⟨2, 0⟩)).map
      (fun s => s.checkerboard_) =
      some [NONE, BLACK, BLACK, NONE, NONE, NONE, NONE, NONE, NONE] := by
  decide

/-- C3, amended. On a square board with one cell per position, for a single queued
request with in-bounds `source` and `target` that the guard of `update` accepts: the
swap exchanges the values of the source and target cells and leaves every other cell
as it was; with `K` the result of `check_kill_chesspiece` on the swapped board at
`target`, the board after `update` is the swapped board with the cells of `K` set to
`NONE`; `K` contains neither `source` nor `target`; and when `K` is empty the board
after `update` is the swapped board. -/
theorem update_board_after_accepted_request (h : Header) (s : GameLogic)
    (source target : Vec2)
    (hsq : h.kCheckerboardRowNum = h.kCheckerboardColNum) (hwf : WellFormed h s)
    (hins : is_in_checkerboard h source = true) (hint : is_in_checkerboard h target = true)
    (hq : s.move_queue_ = [⟨source, target⟩])
    (hacc : move_accepted h s source target = some true) :
    ∃ swapped K s',
      swap_cells s.checkerboard_ (source.y * h.kCheckerboardRowNum + source.x)
        (target.y * h.kCheckerboardRowNum + target.x) = some swapped ∧
      (∀ p, is_in_checkerboard h p = true → cell_at h swapped p =
        if p = source then cell_at h s.checkerboard_ target
        else if p = target then cell_at h s.checkerboard_ source
        else cell_at h s.checkerboard_ p) ∧
      check_kill_chesspiece h swapped target = some K ∧
      update h s = some s' ∧
      s'.checkerboard_.length = s.checkerboard_.length ∧
      (∀ p, is_in_checkerboard h p = true → cell_at h s'.checkerboard_ p =
        if p ∈ K then some NONE else cell_at h swapped p) ∧
      source ∉ K ∧ target ∉ K ∧
      (K = [] → s'.checkerboard_ = swapped) := by
  obtain ⟨t, ht, _, htg, _, _, _⟩ :=
    move_accepted_true h s source target hsq hwf hins hint hacc
  obtain ⟨t', swapped, K, ht', hswap, hlen, hcell, hK, _, hKm, hupd⟩ :=
    update_front_accepted h s source target hsq hwf hins hint hacc
  obtain rfl : t = t' := Option.some.inj (ht.symm.trans ht')
  have hupd' := update_single h s source target hq
  rw [hupd] at hupd'
  simp only [Option.some_bind] at hupd'
  refine ⟨swapped, K, _, hswap, ?_, hK, hupd', ?_, ?_, ?_, ?_, ?_⟩
  · intro p hp
    rw [hcell p hp, htg, ht]
  · simp only [kill_board_length, hlen]
  · intro p hp
    exact cell_at_kill_board h swapped K hsq (hlen.trans hwf) (fun q hq => (hKm q hq).1) p hp
  · exact fun hm => (hKm source hm).2.1 rfl
  · exact fun hm => (hKm target hm).2.2.1 rfl
  · intro e
    subst e
    rfl

/-- C3, amended, instance: on the 3 x 3 board `W B _ / _ _ B / _ _ _`, the request
from column 2 of row 1 to column 2 of row 0. -/
theorem update_board_after_accepted_request_witness :
    ∃ swapped K s',
      swap_cells board_wb_b (1 * 3 + 2) (0 * 3 + 2) = some swapped ∧
      check_kill_chesspiece (square 3) swapped ⟨2, 0⟩ = some K ∧
      update (square 3) (move_chess_piece (init board_wb_b) ⟨2, 1⟩ ⟨2, 0⟩) = some s' ∧
      (∀ p, is_in_checkerboard (square 3) p = true →
        cell_at (square 3) s'.checkerboard_ p =
          if p ∈ K then some NONE else cell_at (square 3) swapped p) ∧
      ⟨2, 1⟩ ∉ K ∧ ⟨2, 0⟩ ∉ K := by
  obtain ⟨swapped, K, s', h1, _, h3, h4, _, h6, h7, h8, _⟩ :=
    update_board_after_accepted_request (square 3)
      (move_chess_piece (init board_wb_b) ⟨2, 1⟩ ⟨2, 0⟩) ⟨2, 1⟩ ⟨2, 0⟩ rfl (by decide)
      (by decide) (by decide) rfl (by decide)
  exact ⟨swapped, K, s', h1, h3, h4, h6, h7, h8⟩

/-- C4. On a square board with one cell per position, for a single queued request
with in-bounds `source` and `target` that the guard of `update` accepts, with `t` the
value of the source cell and `K` the result of `check_kill_chesspiece` on the swapped
board at `target`: `update` extends the action log by `MOVED(t, source, target)`, then
one `KILLED` action with source `target` and target `p` for each `p` of `K` in order,
then `STANDBY(t)` with zero positions, that is by `2 + |K|` actions; afterwards every
cell of `K` is `NONE`, the target cell holds `t`, and the standby type is `t`. -/
theorem update_log_after_accepted_request (h : Header) (s : GameLogic)
    (source target : Vec2) (t : ChessPieceType)
    (hsq : h.kCheckerboardRowNum = h.kCheckerboardColNum) (hwf : WellFormed h s)
    (hins : is_in_checkerboard h source = true) (hint : is_in_checkerboard h target = true)
    (hq : s.move_queue_ = [⟨source, target⟩])
    (hacc : move_accepted h s source target = some true)
    (ht : cell_at h s.checkerboard_ source = some t) :
    ∃ swapped K s',
      swap_cells s.checkerboard_ (source.y * h.kCheckerboardRowNum + source.x)
        (target.y * h.kCheckerboardRowNum + target.x) = some swapped ∧
      check_kill_chesspiece h swapped target = some K ∧
      update h s = some s' ∧
      s'.action_queue_ = s.action_queue_ ++ [⟨ActionType.MOVED, t, source, target⟩] ++
        K.map (fun p => ⟨ActionType.KILLED, NONE, target, p⟩) ++
        [⟨ActionType.STANDBY, t, Vec2.zero, Vec2.zero⟩] ∧
      s'.action_queue_.length = s.action_queue_.length + (2 + K.length) ∧
      (∀ p ∈ K, cell_at h s'.checkerboard_ p = some NONE) ∧
      cell_at h s'.checkerboard_ target = some t ∧
      s'.standby_type_ = t ∧
      s'.move_queue_ = [] := by
  obtain ⟨t', swapped, K, ht', hswap, hlen, hcell, hK, _, hKm, hupd⟩ :=
    update_front_accepted h s source target hsq hwf hins hint hacc
  obtain rfl : t = t' := Option.some.inj (ht.symm.trans ht')
  have hst : source ≠ target :=
    (move_accepted_true h s source target hsq hwf hins hint hacc).choose_spec.2.2.2.1
  have hkb := cell_at_kill_board h swapped K hsq (hlen.trans hwf) (fun q hq => (hKm q hq).1)
  have hupd' := update_single h s source target hq
  rw [hupd] at hupd'
  simp only [Option.some_bind] at hupd'
  refine ⟨swapped, K, _, hswap, hK, hupd', rfl, ?_, ?_, ?_, rfl, rfl⟩
  · simp only [List.length_append, List.length_map, List.length_singleton]
    omega
  · intro p hp
    have := hkb p (hKm p hp).1
    simpa [hp] using this
  · have hnk : target ∉ K := fun hm => (hKm target hm).2.2.1 rfl
    rw [hkb target hint, if_neg hnk, hcell target hint, if_neg (Ne.symm hst), if_pos rfl]

/-- C4, instance: on the 3 x 3 board `W B _ / _ _ B / _ _ _` the request from column 2
of row 1 to column 2 of row 0 logs `MOVED`, one `KILLED` and `STANDBY`. -/
theorem update_log_after_accepted_request_witness :
    (update (square 3) (move_chess_piece (init board_wb_b) ⟨2, 1⟩ ⟨2, 0⟩)).map
        (fun s => s.action_queue_) =
      some [⟨ActionType.MOVED, BLACK, ⟨2, 1⟩, ⟨2, 0⟩⟩,
        ⟨ActionType.KILLED, NONE, ⟨2, 0⟩, ⟨0, 0⟩⟩,
        ⟨ActionType.STANDBY, BLACK, Vec2.zero, Vec2.zero⟩] := by
  obtain ⟨swapped, K, s', h1, h2, h3, h4, _⟩ :=
    update_log_after_accepted_request (square 3)
      (move_chess_piece (init board_wb_b) ⟨2, 1⟩ ⟨2, 0⟩) ⟨2, 1⟩ ⟨2, 0⟩ BLACK rfl (by decide)
      (by decide) (by decide) rfl (by decide) (by decide)
  have e1 : swapped = [WHITE, BLACK, BLACK, NONE, NONE, NONE, NONE, NONE, NONE] :=
    (Option.some.inj (h1.symm.trans (by decide)))
  subst e1
  have e2 : K = [⟨0, 0⟩] := Option.some.inj (h2.symm.trans (by decide))
  subst e2
  rw [h3]
  simpa using h4

/-- C9. A request whose target is off the board is not always dropped. On the 4 x 4
board with a lone black piece at column 0 of row 0, the request to the off-board
position `(-1, 0)` passes `is_valid_chess_piece` and `is_adjacent`, and `update` then
reads the board at index `0 * 4 + -1`, outside the array; with a black piece at
column 3 of row 0 and a white one at column 0 of row 1, the request to the off-board
position `(4, 0)` is accepted by the guard, which reads cell `0 * 4 + 4`. -/
theorem update_reads_outside_board :
    is_in_checkerboard (square 4) ⟨-1, 0⟩ = false ∧
    is_valid_chess_piece (square 4) (init board_lone_black) ⟨0, 0⟩ = some true ∧
    is_valid_chess_piece (square 4) (init board_lone_black) ⟨-1, 0⟩ = some false ∧
    is_adjacent (square 4) ⟨0, 0⟩ ⟨-1, 0⟩ = true ∧
    readAt board_lone_black (0 * 4 + -1) = none ∧
    update (square 4) (move_chess_piece (init board_lone_black) ⟨0, 0⟩ ⟨-1, 0⟩) = none ∧
    is_in_checkerboard (square 4) ⟨4, 0⟩ = false ∧
    move_accepted (square 4)
      (init [NONE, NONE, NONE, BLACK, WHITE, NONE, NONE, NONE, NONE, NONE, NONE, NONE,
        NONE, NONE, NONE, NONE]) ⟨3, 0⟩ ⟨4, 0⟩ = some true := by
  decide

/-- C10. Two consecutive requests moving the same black piece are both applied: from
the freshly constructed engine on the 4 x 4 board with a lone black piece, submitting
`(0,0) -> (1,0)` and then `(1,0) -> (2,0)` logs two `MOVED` actions of `BLACK`. -/
theorem update_applies_same_colour_twice :
    (init board_lone_black).standby_type_ = BLACK ∧
    (update (square 4)
      (move_chess_piece (move_chess_piece (init board_lone_black) ⟨0, 0⟩ ⟨1, 0⟩)
        ⟨1, 0⟩ ⟨2, 0⟩)).map (fun s => s.action_queue_) =
      some [⟨ActionType.MOVED, BLACK, ⟨0, 0⟩, ⟨1, 0⟩⟩,
        ⟨ActionType.STANDBY, BLACK, Vec2.zero, Vec2.zero⟩,
        ⟨ActionType.MOVED, BLACK, ⟨1, 0⟩, ⟨2, 0⟩⟩,
        ⟨ActionType.STANDBY, BLACK, Vec2.zero, Vec2.zero⟩] := by
  decide

/-! ## The action log and the callback list -/

/-- C13. `add_action_update_callback` appends the callback to the end of the callback
list and extends the action log by exactly one action, `STANDBY` carrying the current
standby type with zero source and target; the board, the standby type and the move
queue are unchanged; on a freshly constructed engine the log after registration is
exactly `[STANDBY(BLACK)]`. -/
theorem add_action_update_callback_effect (s : GameLogic) (callback : Nat) :
    (add_action_update_callback s callback).action_callback_list_ =
        s.action_callback_list_ ++ [callback] ∧
      (add_action_update_callback s callback).action_queue_ =
        s.action_queue_ ++ [⟨ActionType.STANDBY, s.standby_type_, Vec2.zero, Vec2.zero⟩] ∧
      (add_action_update_callback s callback).action_queue_.length =
        s.action_queue_.length + 1 ∧
      (add_action_update_callback s callback).checkerboard_ = s.checkerboard_ ∧
      (add_action_update_callback s callback).standby_type_ = s.standby_type_ ∧
      (add_action_update_callback s callback).move_queue_ = s.move_queue_ ∧
      ∀ board : List ChessPieceType,
        (add_action_update_callback (init board) callback).action_queue_ =
          [⟨ActionType.STANDBY, BLACK, Vec2.zero, Vec2.zero⟩] := by
  refine ⟨rfl, rfl, ?_, rfl, rfl, rfl, fun _ => rfl⟩
  simp [add_action_update_callback, add_action]

/-- C15. `get_action_from_queue` returns the logged action of that index when the index
is below the length of the log, and otherwise the sentinel, whose kind and piece type
are both `NONE`; it returns for every index. -/
theorem get_action_from_queue_cases (s : GameLogic) (index : Nat) :
    get_action_from_queue s index = s.action_queue_[index]?.getD sentinel_action ∧
      (∀ hi : index < s.action_queue_.length,
        get_action_from_queue s index = s.action_queue_[index]) ∧
      (s.action_queue_.length ≤ index →
        get_action_from_queue s index = sentinel_action) ∧
      sentinel_action.type = ActionType.NONE ∧ sentinel_action.chess_type = NONE := by
  refine ⟨?_, ?_, ?_, rfl, rfl⟩
  · by_cases hi : index < s.action_queue_.length
    · simp [get_action_from_queue, hi, sentinel_action, List.getD_eq_getElem?_getD]
    · have hge : s.action_queue_.length ≤ index := Nat.le_of_not_lt hi
      simp [get_action_from_queue, hi, sentinel_action, List.getElem?_eq_none hge]
  · intro hi
    simp [get_action_from_queue, hi, List.getD_eq_getElem?_getD]
  · intro hge
    have hi : ¬ index < s.action_queue_.length := Nat.not_lt.mpr hge
    simp [get_action_from_queue, hi, sentinel_action]

/-- C15, instance: with a log of one action, index 0 returns it and index 1 returns the
sentinel. -/
theorem get_action_from_queue_cases_witness :
    get_action_from_queue (add_action_update_callback (init []) 0) 0 =
        ⟨ActionType.STANDBY, BLACK, Vec2.zero, Vec2.zero⟩ ∧
      get_action_from_queue (add_action_update_callback (init []) 0) 1 = sentinel_action :=
  ⟨(get_action_from_queue_cases (add_action_update_callback (init []) 0) 0).2.1
      (by decide),
    (get_action_from_queue_cases (add_action_update_callback (init []) 0) 1).2.2.1
      (by decide)⟩

/-- C16. `clear` leaves the action log and the callback list empty, so that
`get_action_from_queue` returns the sentinel for every index afterwards, and leaves the
board, the standby type and the pending move queue unchanged. -/
theorem clear_effect (s : GameLogic) :
    (clear s).action_queue_ = [] ∧ (clear s).action_callback_list_ = [] ∧
      (∀ index : Nat, get_action_from_queue (clear s) index = sentinel_action) ∧
      (clear s).checkerboard_ = s.checkerboard_ ∧
      (clear s).standby_type_ = s.standby_type_ ∧
      (clear s).move_queue_ = s.move_queue_ := by
  refine ⟨rfl, rfl, ?_, rfl, rfl, rfl⟩
  intro index
  simp [get_action_from_queue, clear, sentinel_action]

/-! ## The queue of requests -/

theorem kill_loop_queue (h : Header) (target : Vec2) (q : List MoveTrack) :
    ∀ (K : List Vec2) (s : GameLogic),
      kill_loop h target K { s with move_queue_ := q } =
        (kill_loop h target K s).map fun s1 => { s1 with move_queue_ := q } := by
  intro K
  induction K with
  | nil => intro s; rfl
  | cons p rest ih =>
    intro s
    simp only [kill_loop]
    cases hw : writeAt s.checkerboard_ (p.y * h.kCheckerboardRowNum + p.x) NONE with
    | none => rfl
    | some board =>
      simp only [Option.some_bind]
      exact ih (add_action { s with checkerboard_ := board } ActionType.KILLED NONE target p)

theorem update_front_queue (h : Header) (s : GameLogic) (source target : Vec2)
    (q : List MoveTrack) :
    update_front h { s with move_queue_ := q } source target =
      (update_front h s source target).map fun s1 => { s1 with move_queue_ := q } := by
  have hacc : move_accepted h { s with move_queue_ := q } source target =
      move_accepted h s source target := rfl
  unfold update_front
  rw [hacc]
  cases move_accepted h s source target with
  | none => rfl
  | some ok =>
    cases ok with
    | false => rfl
    | true =>
      simp only [Option.some_bind, if_true, apply_move]
      cases swap_cells s.checkerboard_ (source.y * h.kCheckerboardRowNum + source.x)
          (target.y * h.kCheckerboardRowNum + target.x) with
      | none => rfl
      | some board =>
        simp only [Option.some_bind]
        cases readAt board (target.y * h.kCheckerboardRowNum + target.x) with
        | none => rfl
        | some moved =>
          simp only [Option.some_bind, add_action]
          cases check_kill_chesspiece h board target with
          | none => rfl
          | some K =>
            simp only [Option.some_bind]
            have hk := kill_loop_queue h target q K
              { s with checkerboard_ := board
                       action_queue_ := s.action_queue_ ++
                        [⟨ActionType.MOVED, moved, source, target⟩] }
            simp only at hk
            rw [hk]
            cases kill_loop h target K
              { s with checkerboard_ := board
                       action_queue_ := s.action_queue_ ++
                        [⟨ActionType.MOVED, moved, source, target⟩] } with
            | none => rfl
            | some s2 =>
              simp only [Option.map_some', Option.some_bind]
              cases readAt s2.checkerboard_ (target.y * h.kCheckerboardRowNum + target.x) with
              | none => rfl
              | some standby => rfl

theorem process_fifo_queue (h : Header) (q : List MoveTrack) :
    ∀ (requests : List MoveTrack) (s : GameLogic),
      process_fifo h requests { s with move_queue_ := q } =
        (process_fifo h requests s).map fun s1 => { s1 with move_queue_ := q } := by
  intro requests
  induction requests with
  | nil => intro s; rfl
  | cons m rest ih =>
    intro s
    simp only [process_fifo]
    rw [update_front_queue]
    cases update_front h s m.source m.target with
    | none => rfl
    | some s1 =>
      simp only [Option.map_some', Option.some_bind]
      exact ih s1

theorem process_fifo_append (h : Header) :
    ∀ (q1 q2 : List MoveTrack) (s : GameLogic),
      process_fifo h (q1 ++ q2) s = (process_fifo h q1 s).bind (process_fifo h q2) := by
  intro q1
  induction q1 with
  | nil => intro q2 s; rfl
  | cons m rest ih =>
    intro q2 s
    simp only [List.cons_append, process_fifo]
    cases update_front h s m.source m.target with
    | none => rfl
    | some s1 =>
      simp only [Option.some_bind]
      exact ih q2 s1

theorem update_loop_eq_process_fifo (h : Header) :
    ∀ (requests : List MoveTrack) (s : GameLogic),
      update_loop h requests s =
        (process_fifo h requests s).map fun s1 => { s1 with move_queue_ := [] } := by
  intro requests
  induction requests with
  | nil => intro s; rfl
  | cons m rest ih =>
    intro s
    simp only [update_loop, process_fifo]
    rw [update_front_queue]
    cases update_front h s m.source m.target with
    | none => rfl
    | some s1 =>
      simp only [Option.map_some', Option.some_bind]
      rw [ih, process_fifo_queue]
      cases process_fifo h rest s1 with
      | none => rfl
      | some s2 => rfl

theorem update_eq_process_fifo (h : Header) (s : GameLogic) :
    update h s =
      (process_fifo h s.move_queue_ s).map fun s1 => { s1 with move_queue_ := [] } :=
  update_loop_eq_process_fifo h s.move_queue_ s

theorem submit_move_queue (requests : List MoveTrack) :
    ∀ s : GameLogic, submit s requests = { s with move_queue_ := s.move_queue_ ++ requests } := by
  induction requests with
  | nil => intro s; simp [submit]
  | cons m rest ih =>
    intro s
    have := ih (move_chess_piece s m.source m.target)
    simp only [submit, List.foldl_cons] at this ⊢
    rw [this]
    simp [move_chess_piece]

theorem move_accepted_total (h : Header) (s : GameLogic) (source target : Vec2)
    (hsq : h.kCheckerboardRowNum = h.kCheckerboardColNum) (hwf : WellFormed h s)
    (hint : is_in_checkerboard h target = true) :
    ∃ ok, move_accepted h s source target = some ok := by
  obtain ⟨a, _, hva, _⟩ := get_chesspiece_type_spec h s source hsq hwf
  obtain ⟨b, _, hvb, hcb, _⟩ := get_chesspiece_type_spec h s target hsq hwf
  have hrb := hcb hint
  unfold cell_at at hrb
  unfold move_accepted
  by_cases hst : source = target
  · exact ⟨false, by simp [hst]⟩
  · by_cases han : a = NONE
    · exact ⟨false, by simp [hst, hva, han]⟩
    · by_cases hbn : b = NONE
      · by_cases hadj : is_adjacent h source target = true
        · exact ⟨decide (b ≠ s.standby_type_), by
            simp [hst, hva, hvb, han, hbn, hadj, hsq, hrb]⟩
        · exact ⟨false, by simp [hst, hva, hvb, han, hbn, hadj]⟩
      · exact ⟨false, by simp [hst, hva, hvb, han, hbn]⟩

theorem move_accepted_source_in (h : Header) (s : GameLogic) (source target : Vec2)
    (hacc : move_accepted h s source target = some true) :
    is_in_checkerboard h source = true := by
  by_contra hin
  have hv : is_valid_chess_piece h s source = some false := by
    simp [is_valid_chess_piece, hin]
  unfold move_accepted at hacc
  by_cases hst : source = target
  · simp [hst] at hacc
  · simp [hst, hv] at hacc

/-- On a square board with one cell per position, a request whose target is on the
board is processed without any access outside the board, and the board keeps its
size. -/
theorem update_front_total (h : Header) (s : GameLogic) (source target : Vec2)
    (hsq : h.kCheckerboardRowNum = h.kCheckerboardColNum) (hwf : WellFormed h s)
    (hint : is_in_checkerboard h target = true) :
    ∃ s1, update_front h s source target = some s1 ∧ WellFormed h s1 := by
  obtain ⟨ok, hok⟩ := move_accepted_total h s source target hsq hwf hint
  cases ok with
  | false => exact ⟨s, by simp [update_front, hok], hwf⟩
  | true =>
    have hins := move_accepted_source_in h s source target hok
    obtain ⟨t, swapped, K, _, _, hlen, _, _, _, _, hupd⟩ :=
      update_front_accepted h s source target hsq hwf hins hint hok
    refine ⟨_, hupd, ?_⟩
    unfold WellFormed at hwf ⊢
    simp only [kill_board_length, hlen, hwf]

theorem process_fifo_total (h : Header)
    (hsq : h.kCheckerboardRowNum = h.kCheckerboardColNum) :
    ∀ (requests : List MoveTrack) (s : GameLogic), WellFormed h s →
      (∀ m ∈ requests, is_in_checkerboard h m.target = true) →
      ∃ s1, process_fifo h requests s = some s1 ∧ WellFormed h s1 := by
  intro requests
  induction requests with
  | nil => intro s hwf _; exact ⟨s, rfl, hwf⟩
  | cons m rest ih =>
    intro s hwf hin
    obtain ⟨s1, h1, hwf1⟩ := update_front_total h s m.source m.target hsq hwf
      (hin m (by simp))
    obtain ⟨s2, h2, hwf2⟩ := ih s1 hwf1 (fun r hr => hin r (List.mem_cons_of_mem _ hr))
    exact ⟨s2, by simp [process_fifo, h1, h2], hwf2⟩

theorem update_total (h : Header) (s : GameLogic)
    (hsq : h.kCheckerboardRowNum = h.kCheckerboardColNum) (hwf : WellFormed h s)
    (hin : ∀ m ∈ s.move_queue_, is_in_checkerboard h m.target = true) :
    ∃ s1, update h s = some s1 ∧ WellFormed h s1 := by
  obtain ⟨s1, h1, hwf1⟩ := process_fifo_total h hsq s.move_queue_ s hwf hin
  exact ⟨{ s1 with move_queue_ := [] }, by simp [update_eq_process_fifo, h1], hwf1⟩

/-! ## The log only grows -/

theorem kill_loop_log (h : Header) (target : Vec2) :
    ∀ (K : List Vec2) (s s2 : GameLogic), kill_loop h target K s = some s2 →
      s2.action_queue_ = s.action_queue_ ++
        K.map fun p => ⟨ActionType.KILLED, NONE, target, p⟩ := by
  intro K
  induction K with
  | nil =>
    intro s s2 hk
    simp only [kill_loop, Option.some.injEq] at hk
    subst hk
    simp
  | cons p rest ih =>
    intro s s2 hk
    simp only [kill_loop, Option.bind_eq_some] at hk
    obtain ⟨board, _, hk2⟩ := hk
    rw [ih _ s2 hk2]
    simp [add_action]

theorem update_front_log (h : Header) (s s1 : GameLogic) (source target : Vec2)
    (hup : update_front h s source target = some s1) :
    s.action_queue_ <+: s1.action_queue_ := by
  unfold update_front at hup
  cases hacc : move_accepted h s source target with
  | none => simp [hacc] at hup
  | some ok =>
    cases ok with
    | false =>
      simp only [hacc, Option.some_bind, Bool.false_eq_true, if_false,
        Option.some.injEq] at hup
      subst hup
      exact List.prefix_refl _
    | true =>
      simp only [hacc, Option.some_bind, if_true, apply_move, Option.bind_eq_some,
        Option.some.injEq] at hup
      obtain ⟨board, _, moved, _, K, _, s2, hs2, standby, _, heq⟩ := hup
      have hlog := kill_loop_log h target K _ s2 hs2
      subst heq
      simp only [add_action] at hlog ⊢
      rw [hlog, List.append_assoc, List.append_assoc]
      exact List.prefix_append _ _

theorem process_fifo_log (h : Header) :
    ∀ (requests : List MoveTrack) (s s1 : GameLogic), process_fifo h requests s = some s1 →
      s.action_queue_ <+: s1.action_queue_ := by
  intro requests
  induction requests with
  | nil =>
    intro s s1 hp
    simp only [process_fifo, Option.some.injEq] at hp
    subst hp
    exact List.prefix_refl _
  | cons m rest ih =>
    intro s s1 hp
    simp only [process_fifo, Option.bind_eq_some] at hp
    obtain ⟨s2, h2, h3⟩ := hp
    exact (update_front_log h s s2 m.source m.target h2).trans (ih s2 s1 h3)

theorem update_log (h : Header) (s s1 : GameLogic) (hup : update h s = some s1) :
    s.action_queue_ <+: s1.action_queue_ := by
  rw [update_eq_process_fifo, Option.map_eq_some'] at hup
  obtain ⟨s2, h2, rfl⟩ := hup
  exact process_fifo_log h s.move_queue_ s s2 h2

theorem get_action_from_queue_of_prefix (s s1 : GameLogic)
    (hp : s.action_queue_ <+: s1.action_queue_) (index : Nat)
    (hi : index < s.action_queue_.length) :
    get_action_from_queue s1 index = get_action_from_queue s index := by
  obtain ⟨l, hl⟩ := hp
  have hi1 : index < s1.action_queue_.length := by
    rw [← hl, List.length_append]
    omega
  simp only [get_action_from_queue, hi, hi1, if_true, List.getD_eq_getElem?_getD]
  rw [← hl, List.getElem?_append_left hi]

/-! ## Draining the queue -/

/-- C11. `update` is the processing of the queued requests one at a time in submission
order, each on the state left by the previous ones, followed by an empty move queue;
every state it returns has an empty move queue; submitting `q1 ++ q2` and calling
`update` once gives the same result as submitting `q1`, calling `update`, submitting
`q2` and calling `update` again; and on a square board with one cell per position it
returns a state for every queue whose targets are on the board. -/
theorem update_drains_fifo (h : Header) (s : GameLogic) :
    update h s =
        (process_fifo h s.move_queue_ s).map (fun s1 => { s1 with move_queue_ := [] }) ∧
      (∀ s1, update h s = some s1 → s1.move_queue_ = []) ∧
      (∀ q1 q2 : List MoveTrack,
        update h (submit s (q1 ++ q2)) =
          (update h (submit s q1)).bind fun s1 => update h (submit s1 q2)) ∧
      (h.kCheckerboardRowNum = h.kCheckerboardColNum → WellFormed h s →
        (∀ m ∈ s.move_queue_, is_in_checkerboard h m.target = true) →
        ∃ s1, update h s = some s1 ∧ s1.move_queue_ = []) := by
  refine ⟨update_eq_process_fifo h s, ?_, ?_, ?_⟩
  · intro s1 hup
    rw [update_eq_process_fifo, Option.map_eq_some'] at hup
    obtain ⟨s2, _, rfl⟩ := hup
    rfl
  · intro q1 q2
    rw [update_eq_process_fifo, update_eq_process_fifo, submit_move_queue,
      submit_move_queue]
    simp only [process_fifo_queue, Option.map_map, ← List.append_assoc]
    rw [process_fifo_append]
    cases process_fifo h (s.move_queue_ ++ q1) s with
    | none => rfl
    | some s1 =>
      simp only [Option.some_bind, Option.map_some', Function.comp_apply]
      rw [update_eq_process_fifo, submit_move_queue]
      simp only [List.nil_append, process_fifo_queue, Option.map_map]
      rfl
  · intro hsq hwf hin
    obtain ⟨s1, h1, _⟩ := process_fifo_total h hsq s.move_queue_ s hwf hin
    exact ⟨{ s1 with move_queue_ := [] }, by simp [update_eq_process_fifo, h1], rfl⟩

/-- C11, instance: on the 4 x 4 board with a lone black piece, the queue
`(0,0) -> (1,0)`, `(1,0) -> (2,0)` is drained by one `update`. -/
theorem update_drains_fifo_witness :
    ∃ s1, update (square 4)
        (submit (init board_lone_black) [⟨⟨0, 0⟩, ⟨1, 0⟩⟩, ⟨⟨1, 0⟩, ⟨2, 0⟩⟩]) = some s1 ∧
      s1.move_queue_ = [] :=
  (update_drains_fifo (square 4)
    (submit (init board_lone_black) [⟨⟨0, 0⟩, ⟨1, 0⟩⟩, ⟨⟨1, 0⟩, ⟨2, 0⟩⟩])).2.2.2
    rfl (by decide) (by decide)

/-- C12. On a square board with one cell per position, for a request with in-bounds
`source` and `target` that the guard of `update` accepts, submitting the request twice
before one `update` gives exactly the state that submitting it once gives: the first
copy is applied and the second, validated against the board left by the first, is
dropped. -/
theorem update_same_request_twice (h : Header) (s : GameLogic) (source target : Vec2)
    (hsq : h.kCheckerboardRowNum = h.kCheckerboardColNum) (hwf : WellFormed h s)
    (hins : is_in_checkerboard h source = true) (hint : is_in_checkerboard h target = true)
    (hq : s.move_queue_ = [])
    (hacc : move_accepted h s source target = some true) :
    ∃ s1 s2, update_front h s source target = some s1 ∧
      update_front h s1 source target = some s1 ∧
      update h (move_chess_piece s source target) = some s2 ∧
      update h (move_chess_piece (move_chess_piece s source target) source target) =
        some s2 := by
  obtain ⟨t, swapped, K, _, _, hlen, hcell, _, _, hKm, hupd⟩ :=
    update_front_accepted h s source target hsq hwf hins hint hacc
  generalize hs1 : ({ checkerboard_ := kill_board h K swapped
                      standby_type_ := t
                      action_queue_ := s.action_queue_ ++
                        [⟨ActionType.MOVED, t, source, target⟩] ++
                        K.map (fun p => ⟨ActionType.KILLED, NONE, target, p⟩) ++
                        [⟨ActionType.STANDBY, t, Vec2.zero, Vec2.zero⟩]
                      move_queue_ := s.move_queue_
                      action_callback_list_ := s.action_callback_list_ } : GameLogic) = s1
    at hupd
  have hwf1 : WellFormed h s1 := by
    subst hs1
    unfold WellFormed at hwf ⊢
    simp only [kill_board_length, hlen, hwf]
  have hsrc : get_chesspiece_type h s1 source = some NONE := by
    obtain ⟨a, ha, _, hca, _⟩ := get_chesspiece_type_spec h s1 source hsq hwf1
    have h1 := hca hins
    subst hs1
    rw [cell_at_kill_board h swapped K hsq (hlen.trans hwf) (fun q hq => (hKm q hq).1)
      source hins, if_neg (fun hm => (hKm source hm).2.1 rfl), hcell source hins,
      if_pos rfl] at h1
    rw [ha, ← Option.some.inj h1]
  have hdrop := update_front_dropped h s1 source target hsq hwf1 (Or.inr (Or.inl hsrc))
  refine ⟨s1, { s1 with move_queue_ := [] }, hupd, hdrop, ?_, ?_⟩
  · rw [update_eq_process_fifo]
    simp only [move_chess_piece, hq, List.nil_append, process_fifo, process_fifo_queue,
      update_front_queue, hupd, Option.map_some', Option.some_bind, Option.bind_some]
  · rw [update_eq_process_fifo]
    simp only [move_chess_piece, hq, List.nil_append, List.cons_append, process_fifo,
      process_fifo_queue, update_front_queue, hupd, hdrop, Option.map_some',
      Option.some_bind, Option.bind_some]

/-- C12, instance: on the 3 x 3 board `W B _ / _ _ B / _ _ _`, the request from column 2
of row 1 to column 2 of row 0 submitted once and submitted twice. -/
theorem update_same_request_twice_witness :
    update (square 3) (move_chess_piece (init board_wb_b) ⟨2, 1⟩ ⟨2, 0⟩) =
      update (square 3)
        (move_chess_piece (move_chess_piece (init board_wb_b) ⟨2, 1⟩ ⟨2, 0⟩) ⟨2, 1⟩ ⟨2, 0⟩) := by
  obtain ⟨s1, s2, _, _, h3, h4⟩ := update_same_request_twice (square 3) (init board_wb_b)
    ⟨2, 1⟩ ⟨2, 0⟩ rfl (by decide) (by decide) (by decide) rfl (by decide)
  rw [h3, h4]

/-- C14. The action log is append-only: `move_chess_piece` leaves it as it is,
`add_action_update_callback` and `update` return a log that has the earlier log as a
prefix, and whenever the earlier log is a prefix of the later one
`get_action_from_queue` returns the same record before and after for every index
below the earlier length; on a square board with one cell per position `update`
returns a state for every queue whose targets are on the board. -/
theorem action_log_append_only (h : Header) (s : GameLogic) :
    (∀ source target : Vec2,
        (move_chess_piece s source target).action_queue_ = s.action_queue_) ∧
      (∀ callback : Nat,
        s.action_queue_ <+: (add_action_update_callback s callback).action_queue_) ∧
      (∀ s1, update h s = some s1 → s.action_queue_ <+: s1.action_queue_) ∧
      (∀ s1 : GameLogic, s.action_queue_ <+: s1.action_queue_ →
        ∀ index, index < s.action_queue_.length →
          get_action_from_queue s1 index = get_action_from_queue s index) ∧
      (h.kCheckerboardRowNum = h.kCheckerboardColNum → WellFormed h s →
        (∀ m ∈ s.move_queue_, is_in_checkerboard h m.target = true) →
        ∃ s1, update h s = some s1 ∧ s.action_queue_ <+: s1.action_queue_) := by
  refine ⟨fun _ _ => rfl, fun _ => List.prefix_append _ _, update_log h s,
    get_action_from_queue_of_prefix s, ?_⟩
  intro hsq hwf hin
  obtain ⟨s1, h1, _⟩ := update_total h s hsq hwf hin
  exact ⟨s1, h1, update_log h s s1 h1⟩

/-- C14, instance: on the 3 x 3 board `W B _ / _ _ B / _ _ _` with one registered
callback and the request from column 2 of row 1 to column 2 of row 0, the record of
index 0 is the same before and after `update`. -/
theorem action_log_append_only_witness :
    ∃ s1, update (square 3)
        (move_chess_piece (add_action_update_callback (init board_wb_b) 0) ⟨2, 1⟩ ⟨2, 0⟩) =
          some s1 ∧
      get_action_from_queue s1 0 =
        get_action_from_queue
          (move_chess_piece (add_action_update_callback (init board_wb_b) 0) ⟨2, 1⟩ ⟨2, 0⟩)
          0 := by
  obtain ⟨_, _, _, h4, h5⟩ := action_log_append_only (square 3)
    (move_chess_piece (add_action_update_callback (init board_wb_b) 0) ⟨2, 1⟩ ⟨2, 0⟩)
  obtain ⟨s1, h1, hp⟩ := h5 rfl (by decide) (by decide)
  exact ⟨s1, h1, h4 s1 hp 0 (by decide)⟩

/-! ## What is killed -/

theorem opposite_of_ne (key t : ChessPieceType) (hk : key ≠ NONE) (ht : t ≠ NONE)
    (hne : t ≠ key) : t = opposite key := by
  cases key <;> cases t <;> simp_all [opposite]

/-- C18. At an in-bounds, occupied triggering position of a board with one cell per
position, every position that `check_kill_chesspiece` returns lies on the row or on
the column of the trigger, is on the board, is occupied and holds the colour opposite
to the key; the triggering position is not among them. -/
theorem check_kill_only_opposite (h : Header) (board : List ChessPieceType) (pos : Vec2)
    (key : ChessPieceType)
    (hlen : board.length = h.kCheckerboardRowNum * h.kCheckerboardColNum)
    (hin : is_in_checkerboard h pos = true)
    (hkey : cell_at h board pos = some key) (hocc : key ≠ NONE) :
    ∃ K, check_kill_chesspiece h board pos = some K ∧ pos ∉ K ∧
      ∀ p ∈ K, (p.y = pos.y ∨ p.x = pos.x) ∧ is_in_checkerboard h p = true ∧
        cell_at h board p = some (opposite key) ∧ occupied_at h board p = true ∧
        opposite key ≠ key ∧ opposite key ≠ NONE := by
  obtain ⟨key', hs, vs, K, hkey', _, _, hK, _, hKm⟩ :=
    check_kill_chesspiece_spec h board pos hlen hin
  obtain rfl : key' = key := Option.some.inj (hkey'.symm.trans hkey)
  have hop : opposite key' ≠ key' ∧ opposite key' ≠ NONE := by
    cases key' <;> simp_all [opposite]
  refine ⟨K, hK, ?_, ?_⟩
  · intro hm
    obtain ⟨_, _, t, ht, hne, _⟩ := hKm pos hm
    rw [hkey'] at ht
    exact hne (Option.some.inj ht).symm
  · intro p hp
    obtain ⟨horig, hpin, t, ht, hne, hnn⟩ := hKm p hp
    have hto := opposite_of_ne key' t hocc hnn hne
    subst hto
    refine ⟨?_, hpin, ht, ?_, hop.1, hop.2⟩
    · rcases horig with ⟨a, _, q | q⟩ | ⟨a, _, q | q⟩ <;> rw [q] <;> simp
    · simp [occupied_at, cell_at, ht, hnn]

/-- C18, instance: on the board `W B B / _ _ _ / _ _ _` with trigger at column 2 of
row 0 the killed position holds `WHITE`, the colour opposite to the key `BLACK`. -/
theorem check_kill_only_opposite_witness :
    ∃ K, check_kill_chesspiece (square 3)
        [WHITE, BLACK, BLACK, NONE, NONE, NONE, NONE, NONE, NONE] ⟨2, 0⟩ = some K ∧
      (⟨2, 0⟩ : Vec2) ∉ K ∧
      ∀ p ∈ K, (p.y = 0 ∨ p.x = 2) ∧ is_in_checkerboard (square 3) p = true ∧
        cell_at (square 3) [WHITE, BLACK, BLACK, NONE, NONE, NONE, NONE, NONE, NONE] p =
          some (opposite BLACK) ∧
        occupied_at (square 3) [WHITE, BLACK, BLACK, NONE, NONE, NONE, NONE, NONE, NONE] p =
          true ∧
        opposite BLACK ≠ BLACK ∧ opposite BLACK ≠ NONE :=
  check_kill_only_opposite (square 3)
    [WHITE, BLACK, BLACK, NONE, NONE, NONE, NONE, NONE, NONE] ⟨2, 0⟩ BLACK (by decide)
    (by decide) (by decide) (by decide)

/-! ## The window of a line -/

/-- The scan loop, started inside a line of `N` cells all of which can be read, with
the current run `[i - c, i)` occupied, not preceded by an occupied cell and not
preceded by any maximal run of exactly three: it returns the first maximal run of
exactly three cells, or a list whose length is not 3 when the line has none. -/
theorem scan_loop_first_run (board : List ChessPieceType) (idx : Int → Int)
    (mk : Int → Vec2) (N : Nat) (occ : Int → Bool)
    (hocc : ∀ j : Int, 0 ≤ j → j < N →
      ∃ t, readAt board (idx j) = some t ∧ occ j = decide (t ≠ NONE)) :
    ∀ (n : Nat) (i : Int) (c : Nat) (ret : List Vec2),
      i + n = N → 0 ≤ i - c → ret = seg mk (i - c) c →
      (∀ j, i - c ≤ j → j < i → occ j = true) →
      (i - c = 0 ∨ occ (i - c - 1) = false) →
      (∀ a, exact_run3 occ N a → i - c ≤ a) →
      ∃ a k, scan_loop board idx mk n i c ret = some (seg mk a k) ∧
        ((k = 3 ∧ exact_run3 occ N a ∧ ∀ b, exact_run3 occ N b → a ≤ b) ∨
          (k ≠ 3 ∧ ∀ b, ¬ exact_run3 occ N b)) := by
  intro n
  induction n with
  | zero =>
    intro i c ret hN h0 hret hrun hleft hfirst
    refine ⟨i - c, c, by simp [scan_loop, hret], ?_⟩
    simp only [Nat.cast_zero, add_zero] at hN
    by_cases hc : c = 3
    · refine Or.inl ⟨hc, ⟨h0, by omega, hrun _ (by omega) (by omega),
        hrun _ (by omega) (by omega), hrun _ (by omega) (by omega), hleft,
        Or.inl (by omega)⟩, hfirst⟩
    · refine Or.inr ⟨hc, ?_⟩
      rintro b ⟨b0, b1, o0, o1, o2, hl, hr⟩
      have hb := hfirst b ⟨b0, b1, o0, o1, o2, hl, hr⟩
      by_cases hbe : b = i - c
      · rcases hr with e | e
        · omega
        · rw [hrun (b + 3) (by omega) (by omega)] at e
          exact Bool.noConfusion e
      · rcases hl with e | e
        · omega
        · rw [hrun (b - 1) (by omega) (by omega)] at e
          exact Bool.noConfusion e
  | succ n ih =>
    intro i c ret hN h0 hret hrun hleft hfirst
    have hiN : i < N := by push_cast at hN; omega
    have hi0 : 0 ≤ i := by omega
    obtain ⟨t, ht, hot⟩ := hocc i hi0 hiN
    by_cases hn : t = NONE
    · have hoi : occ i = false := by simp [hot, hn]
      by_cases hc : c = 3
      · refine ⟨i - c, c, by simp [scan_loop, ht, hn, hc, hret], Or.inl ⟨hc, ⟨h0, by omega,
          hrun _ (by omega) (by omega), hrun _ (by omega) (by omega),
          hrun _ (by omega) (by omega), hleft, Or.inr ?_⟩, hfirst⟩⟩
        have e : i - (c : Int) + 3 = i := by omega
        rw [e]
        exact hoi
      · obtain ⟨a, k, h1, h2⟩ := ih (i + 1) 0 [] (by push_cast at hN ⊢; omega)
          (by push_cast; omega) (by simp [seg])
          (by intro j j1 j2; exfalso; push_cast at j1; omega)
          (Or.inr (by
            have e : i + 1 - ((0 : Nat) : Int) - 1 = i := by push_cast; omega
            rw [e]
            exact hoi))
          (by
            rintro b ⟨b0, b1, o0, o1, o2, hl, hr⟩
            have hb := hfirst b ⟨b0, b1, o0, o1, o2, hl, hr⟩
            push_cast
            by_contra hcon
            have hbi : b ≤ i := by omega
            by_cases e0 : b = i
            · rw [e0, hoi] at o0
              exact Bool.noConfusion o0
            · by_cases e1 : b + 1 = i
              · rw [e1, hoi] at o1
                exact Bool.noConfusion o1
              · by_cases e2 : b + 2 = i
                · rw [e2, hoi] at o2
                  exact Bool.noConfusion o2
                · by_cases hbe : b = i - c
                  · rcases hr with e | e
                    · omega
                    · rw [hrun (b + 3) (by omega) (by omega)] at e
                      exact Bool.noConfusion e
                  · rcases hl with e | e
                    · omega
                    · rw [hrun (b - 1) (by omega) (by omega)] at e
                      exact Bool.noConfusion e)
        exact ⟨a, k, by simp [scan_loop, ht, hn, hc, h1], h2⟩
    · have hoi : occ i = true := by simp [hot, hn]
      have e : i + 1 - ((c + 1 : Nat) : Int) = i - c := by push_cast; omega
      obtain ⟨a, k, h1, h2⟩ := ih (i + 1) (c + 1) (ret ++ [mk i])
        (by push_cast at hN ⊢; omega) (by rw [e]; exact h0)
        (by
          rw [e, seg_succ, hret]
          have e2 : i - (c : Int) + c = i := by omega
          rw [e2])
        (by
          intro j j1 j2
          rw [e] at j1
          by_cases hj : j = i
          · rw [hj]; exact hoi
          · exact hrun j j1 (by omega))
        (by rw [e]; exact hleft)
        (by rw [e]; exact hfirst)
      exact ⟨a, k, by simp [scan_loop, ht, hn, h1], h2⟩

theorem get_chesspieces_with_horizontal_run (h : Header) (board : List ChessPieceType)
    (pos : Vec2) (hlen : board.length = h.kCheckerboardRowNum * h.kCheckerboardColNum)
    (hin : is_in_checkerboard h pos = true) :
    ∃ ret, get_chesspieces_with_horizontal h board pos = some ret ∧
      ((ret = [] ∧ ∀ b, ¬ exact_run3 (fun i => occupied_at h board ⟨i, pos.y⟩)
          h.kCheckerboardColNum b) ∨
        ∃ a : Int, ret = [⟨a, pos.y⟩, ⟨a + 1, pos.y⟩, ⟨a + 2, pos.y⟩] ∧
          exact_run3 (fun i => occupied_at h board ⟨i, pos.y⟩) h.kCheckerboardColNum a ∧
          ∀ b, exact_run3 (fun i => occupied_at h board ⟨i, pos.y⟩)
            h.kCheckerboardColNum b → a ≤ b) := by
  obtain ⟨hx0, hy0, hx1, hy1⟩ := (is_in_checkerboard_iff h pos).mp hin
  have hocc : ∀ j : Int, 0 ≤ j → j < h.kCheckerboardColNum →
      ∃ t, readAt board (pos.y * h.kCheckerboardColNum + j) = some t ∧
        occupied_at h board ⟨j, pos.y⟩ = decide (t ≠ NONE) := by
    intro j h1 h2
    have hb := index_bounds h.kCheckerboardRowNum h.kCheckerboardColNum j pos.y h1 h2 hy0 hy1
    obtain ⟨t, ht⟩ := readAt_of_lt board _ hb.1 (by rw [hlen]; exact hb.2)
    exact ⟨t, ht, by simp [occupied_at, cell_at, ht]⟩
  obtain ⟨t0, ht0, _⟩ := hocc 0 (le_refl 0) (by omega)
  simp only [add_zero] at ht0
  obtain ⟨a, k, h1, h2⟩ := scan_loop_first_run board
    (fun i => pos.y * h.kCheckerboardColNum + i) (fun i => ⟨i, pos.y⟩)
    h.kCheckerboardColNum (fun i => occupied_at h board ⟨i, pos.y⟩) hocc
    h.kCheckerboardColNum 0 0 [] (by simp) (by simp) (by simp [seg])
    (by intro j j1 j2; exfalso; push_cast at j1; omega) (Or.inl (by simp))
    (by intro b hb; simpa using hb.1)
  rcases h2 with ⟨hk, hrun, hfirst⟩ | ⟨hk, hnone⟩
  · subst hk
    exact ⟨seg (fun i => ⟨i, pos.y⟩) a 3,
      by simp [get_chesspieces_with_horizontal, ht0, h1, seg_length],
      Or.inr ⟨a, seg_three _ a, hrun, hfirst⟩⟩
  · exact ⟨[], by simp [get_chesspieces_with_horizontal, ht0, h1, seg_length, hk],
      Or.inl ⟨rfl, hnone⟩⟩

theorem get_chesspieces_with_vertical_run (h : Header) (board : List ChessPieceType)
    (pos : Vec2) (hlen : board.length = h.kCheckerboardRowNum * h.kCheckerboardColNum)
    (hin : is_in_checkerboard h pos = true) :
    ∃ ret, get_chesspieces_with_vertical h board pos = some ret ∧
      ((ret = [] ∧ ∀ b, ¬ exact_run3 (fun i => occupied_at h board ⟨pos.x, i⟩)
          h.kCheckerboardRowNum b) ∨
        ∃ a : Int, ret = [⟨pos.x, a⟩, ⟨pos.x, a + 1⟩, ⟨pos.x, a + 2⟩] ∧
          exact_run3 (fun i => occupied_at h board ⟨pos.x, i⟩) h.kCheckerboardRowNum a ∧
          ∀ b, exact_run3 (fun i => occupied_at h board ⟨pos.x, i⟩)
            h.kCheckerboardRowNum b → a ≤ b) := by
  obtain ⟨hx0, hy0, hx1, hy1⟩ := (is_in_checkerboard_iff h pos).mp hin
  have hocc : ∀ j : Int, 0 ≤ j → j < h.kCheckerboardRowNum →
      ∃ t, readAt board (j * h.kCheckerboardColNum + pos.x) = some t ∧
        occupied_at h board ⟨pos.x, j⟩ = decide (t ≠ NONE) := by
    intro j h1 h2
    have hb := index_bounds h.kCheckerboardRowNum h.kCheckerboardColNum pos.x j hx0 hx1 h1 h2
    obtain ⟨t, ht⟩ := readAt_of_lt board _ hb.1 (by rw [hlen]; exact hb.2)
    exact ⟨t, ht, by simp [occupied_at, cell_at, ht]⟩
  have hb0 := index_bounds h.kCheckerboardRowNum h.kCheckerboardColNum 0 pos.y (le_refl 0)
    (by omega) hy0 hy1
  obtain ⟨t0, ht0⟩ := readAt_of_lt board _ hb0.1 (by rw [hlen]; exact hb0.2)
  simp only [add_zero] at ht0
  obtain ⟨a, k, h1, h2⟩ := scan_loop_first_run board
    (fun i => i * h.kCheckerboardColNum + pos.x) (fun i => ⟨pos.x, i⟩)
    h.kCheckerboardRowNum (fun i => occupied_at h board ⟨pos.x, i⟩) hocc
    h.kCheckerboardRowNum 0 0 [] (by simp) (by simp) (by simp [seg])
    (by intro j j1 j2; exfalso; push_cast at j1; omega) (Or.inl (by simp))
    (by intro b hb; simpa using hb.1)
  rcases h2 with ⟨hk, hrun, hfirst⟩ | ⟨hk, hnone⟩
  · subst hk
    exact ⟨seg (fun i => ⟨pos.x, i⟩) a 3,
      by simp [get_chesspieces_with_vertical, ht0, h1, seg_length],
      Or.inr ⟨a, seg_three _ a, hrun, hfirst⟩⟩
  · exact ⟨[], by simp [get_chesspieces_with_vertical, ht0, h1, seg_length, hk],
      Or.inl ⟨rfl, hnone⟩⟩

/-- C17. On a board with one cell per position and for an in-bounds `pos`, the row scan
returns the three positions, in increasing column order, of the first maximal run of
consecutive occupied cells of the row of `pos` whose length is exactly 3, and the
empty list when the row has no such run; the column scan does the same on the column
of `pos`, in increasing row order. A window is never part of a longer run: the cell
before it and the cell after it, when the line has them, are empty. -/
theorem line_scan_first_exact_run (h : Header) (board : List ChessPieceType) (pos : Vec2)
    (hlen : board.length = h.kCheckerboardRowNum * h.kCheckerboardColNum)
    (hin : is_in_checkerboard h pos = true) :
    (∃ ret, get_chesspieces_with_horizontal h board pos = some ret ∧
      ((ret = [] ∧ ∀ b, ¬ exact_run3 (fun i => occupied_at h board ⟨i, pos.y⟩)
          h.kCheckerboardColNum b) ∨
        ∃ a : Int, ret = [⟨a, pos.y⟩, ⟨a + 1, pos.y⟩, ⟨a + 2, pos.y⟩] ∧
          exact_run3 (fun i => occupied_at h board ⟨i, pos.y⟩) h.kCheckerboardColNum a ∧
          ∀ b, exact_run3 (fun i => occupied_at h board ⟨i, pos.y⟩)
            h.kCheckerboardColNum b → a ≤ b)) ∧
    (∃ ret, get_chesspieces_with_vertical h board pos = some ret ∧
      ((ret = [] ∧ ∀ b, ¬ exact_run3 (fun i => occupied_at h board ⟨pos.x, i⟩)
          h.kCheckerboardRowNum b) ∨
        ∃ a : Int, ret = [⟨pos.x, a⟩, ⟨pos.x, a + 1⟩, ⟨pos.x, a + 2⟩] ∧
          exact_run3 (fun i => occupied_at h board ⟨pos.x, i⟩) h.kCheckerboardRowNum a ∧
          ∀ b, exact_run3 (fun i => occupied_at h board ⟨pos.x, i⟩)
            h.kCheckerboardRowNum b → a ≤ b)) :=
  ⟨get_chesspieces_with_horizontal_run h board pos hlen hin,
    get_chesspieces_with_vertical_run h board pos hlen hin⟩

/-- C17, instances: in the row `_ B W B` the window is columns 1 to 3, a maximal run
of exactly three; in the row `B B B B _` of a board with five columns, a run of four,
there is no window. -/
theorem line_scan_first_exact_run_witness :
    get_chesspieces_with_horizontal (square 4) board_gap_bwb ⟨1, 0⟩ =
        some [⟨1, 0⟩, ⟨2, 0⟩, ⟨3, 0⟩] ∧
      exact_run3 (fun i => occupied_at (square 4) board_gap_bwb ⟨i, 0⟩) 4 1 ∧
      get_chesspieces_with_horizontal ⟨1, 5, lex_less⟩ [BLACK, BLACK, BLACK, BLACK, NONE]
        ⟨0, 0⟩ = some [] := by
  refine ⟨by decide, ?_, by decide⟩
  obtain ⟨ret, hret, hcase⟩ :=
    (line_scan_first_exact_run (square 4) board_gap_bwb ⟨1, 0⟩ (by decide) (by decide)).1
  have e : ret = [⟨1, 0⟩, ⟨2, 0⟩, ⟨3, 0⟩] := Option.some.inj (hret.symm.trans (by decide))
  subst e
  rcases hcase with ⟨hnil, _⟩ | ⟨a, ha, hrun, _⟩
  · simp at hnil
  · simp only [List.cons.injEq, Vec2.mk.injEq, and_true] at ha
    obtain ⟨ha1, _⟩ := ha
    rw [← ha1] at hrun
    exact hrun

/-! ## Windows on boards of at most four rows and columns -/

theorem exact_run3_contains (occ : Int → Bool) (n : Nat) (a x : Int) (hn : n ≤ 4)
    (hrun : exact_run3 occ n a) (hx0 : 0 ≤ x) (hx1 : x < n) (hox : occ x = true) :
    x = a ∨ x = a + 1 ∨ x = a + 2 := by
  obtain ⟨h0, h1, _, _, _, hl, hr⟩ := hrun
  by_cases e1 : x = a - 1
  · rcases hl with e | e
    · omega
    · rw [← e1, hox] at e
      exact Bool.noConfusion e
  · by_cases e2 : x = a + 3
    · rcases hr with e | e
      · omega
      · rw [← e2, hox] at e
        exact Bool.noConfusion e
    · omega

/-- C20. On a board with one cell per position whose rows and columns have at most 4
cells, for an in-bounds occupied triggering position: a window returned by the row
scan contains the trigger, a window returned by the column scan contains the trigger,
and every position returned by `check_kill_chesspiece` belongs to a window that
contains the trigger. -/
theorem window_contains_trigger (h : Header) (board : List ChessPieceType) (pos : Vec2)
    (key : ChessPieceType)
    (hlen : board.length = h.kCheckerboardRowNum * h.kCheckerboardColNum)
    (hin : is_in_checkerboard h pos = true)
    (hR : h.kCheckerboardRowNum ≤ 4) (hC : h.kCheckerboardColNum ≤ 4)
    (hkey : cell_at h board pos = some key) (hocc : key ≠ NONE) :
    ∃ hs vs K,
      get_chesspieces_with_horizontal h board pos = some hs ∧
      get_chesspieces_with_vertical h board pos = some vs ∧
      check_kill_chesspiece h board pos = some K ∧
      (hs ≠ [] → hs.length = 3 ∧ pos ∈ hs) ∧ (vs ≠ [] → vs.length = 3 ∧ pos ∈ vs) ∧
      ∀ p ∈ K, (p ∈ hs ∧ pos ∈ hs) ∨ (p ∈ vs ∧ pos ∈ vs) := by
  obtain ⟨hx0, hy0, hx1, hy1⟩ := (is_in_checkerboard_iff h pos).mp hin
  obtain ⟨_, hs, vs, K, _, hhs, hvs, hK, _, hKm⟩ :=
    check_kill_chesspiece_spec h board pos hlen hin
  obtain ⟨hs', hhs', hsh⟩ := get_chesspieces_with_horizontal_run h board pos hlen hin
  obtain ⟨vs', hvs', vsh⟩ := get_chesspieces_with_vertical_run h board pos hlen hin
  obtain rfl : hs' = hs := Option.some.inj (hhs'.symm.trans hhs)
  obtain rfl : vs' = vs := Option.some.inj (hvs'.symm.trans hvs)
  have hpo : occupied_at h board ⟨pos.x, pos.y⟩ = true := by
    simp [occupied_at, hkey, hocc]
  have hsin : hs' ≠ [] → hs'.length = 3 ∧ pos ∈ hs' := by
    intro hne
    rcases hsh with ⟨e, _⟩ | ⟨a, e, hrun, _⟩
    · exact absurd e hne
    · have hx := exact_run3_contains _ _ a pos.x hC hrun hx0 hx1 hpo
      rw [e]
      refine ⟨rfl, ?_⟩
      have hp : pos = ⟨pos.x, pos.y⟩ := rfl
      rw [hp]
      rcases hx with q | q | q <;> rw [q] <;> simp
  have vsin : vs' ≠ [] → vs'.length = 3 ∧ pos ∈ vs' := by
    intro hne
    rcases vsh with ⟨e, _⟩ | ⟨a, e, hrun, _⟩
    · exact absurd e hne
    · have hy := exact_run3_contains _ _ a pos.y hR hrun hy0 hy1 hpo
      rw [e]
      refine ⟨rfl, ?_⟩
      have hp : pos = ⟨pos.x, pos.y⟩ := rfl
      rw [hp]
      rcases hy with q | q | q <;> rw [q] <;> simp
  refine ⟨hs', vs', K, hhs, hvs, hK, hsin, vsin, ?_⟩
  intro p hp
  obtain ⟨horig, _⟩ := hKm p hp
  rcases horig with ⟨a, e, q⟩ | ⟨a, e, q⟩
  · have hmem : p ∈ hs' := by
      rw [e]
      rcases q with q | q <;> rw [q] <;> simp
    exact Or.inl ⟨hmem, (hsin (List.ne_nil_of_mem hmem)).2⟩
  · have hmem : p ∈ vs' := by
      rw [e]
      rcases q with q | q <;> rw [q] <;> simp
    exact Or.inr ⟨hmem, (vsin (List.ne_nil_of_mem hmem)).2⟩

/-- C20, instance: on the 4 x 4 board whose row 0 holds `_ B W B`, with trigger at
column 3 of row 0, the row window is columns 1 to 3 and contains the trigger. -/
theorem window_contains_trigger_witness :
    ∃ hs vs K,
      get_chesspieces_with_horizontal (square 4) board_gap_bwb ⟨3, 0⟩ = some hs ∧
      get_chesspieces_with_vertical (square 4) board_gap_bwb ⟨3, 0⟩ = some vs ∧
      check_kill_chesspiece (square 4) board_gap_bwb ⟨3, 0⟩ = some K ∧
      (hs ≠ [] → hs.length = 3 ∧ (⟨3, 0⟩ : Vec2) ∈ hs) ∧
      (vs ≠ [] → vs.length = 3 ∧ (⟨3, 0⟩ : Vec2) ∈ vs) ∧
      ∀ p ∈ K, (p ∈ hs ∧ (⟨3, 0⟩ : Vec2) ∈ hs) ∨ (p ∈ vs ∧ (⟨3, 0⟩ : Vec2) ∈ vs) :=
  window_contains_trigger (square 4) board_gap_bwb ⟨3, 0⟩ BLACK (by decide) (by decide)
    (by decide) (by decide) (by decide) (by decide)

/-! ## Counting pieces -/

theorem count_set_readAt (board : List ChessPieceType) (i : Int) (v old c : ChessPieceType)
    (hr : readAt board i = some old) :
    (board.set i.toNat v).count c + (if old = c then 1 else 0) =
      board.count c + (if v = c then 1 else 0) := by
  obtain ⟨h0, h1⟩ := readAt_some_bounds hr
  have h2 : i.toNat < board.length := by omega
  have hget : board[i.toNat] = old := by
    simp only [readAt, not_lt.mpr h0, if_false, List.getElem?_eq_getElem h2,
      Option.some.injEq] at hr
    exact hr
  rw [List.count_set v c board i.toNat h2, hget]
  by_cases e : old = c
  · have hmem : c ∈ board := by
      rw [← e, ← hget]
      exact List.getElem_mem h2
    have hpos : 0 < board.count c := List.count_pos_iff.mpr hmem
    simp only [e, beq_self_eq_true, if_true, beq_iff_eq]
    omega
  · have e2 : (old == c) = false := by simpa using e
    simp only [e, e2, if_false, Bool.false_eq_true, beq_iff_eq]
    omega

theorem swap_cells_count (board swapped : List ChessPieceType) (i j : Int)
    (c : ChessPieceType) (hs : swap_cells board i j = some swapped) :
    swapped.count c = board.count c := by
  simp only [swap_cells, Option.bind_eq_some] at hs
  obtain ⟨a, ha, b, hb, board1, h1, h2⟩ := hs
  obtain ⟨i0, i1⟩ := readAt_some_bounds ha
  obtain ⟨j0, j1⟩ := readAt_some_bounds hb
  rw [writeAt_of_lt _ _ _ i0 i1] at h1
  obtain rfl := Option.some.inj h1
  rw [writeAt_of_lt _ _ _ j0 (by simpa using j1)] at h2
  obtain rfl := Option.some.inj h2
  have hbj : readAt (board.set i.toNat b) j = some b := by
    by_cases e : i = j
    · subst e
      exact readAt_set_same board i b i0 i1
    · rw [readAt_set_other board i j b i0 j0 e]
      exact hb
  have c1 := count_set_readAt board i b a c ha
  have c2 := count_set_readAt (board.set i.toNat b) j a b c hbj
  omega

theorem kill_board_count (h : Header) (o c : ChessPieceType)
    (hsq : h.kCheckerboardRowNum = h.kCheckerboardColNum) :
    ∀ (K : List Vec2) (board : List ChessPieceType), K.Nodup →
      board.length = h.kCheckerboardRowNum * h.kCheckerboardColNum →
      (∀ p ∈ K, is_in_checkerboard h p = true ∧ cell_at h board p = some o) →
      (kill_board h K board).count c + (if o = c then K.length else 0) =
        board.count c + (if NONE = c then K.length else 0) := by
  intro K
  induction K with
  | nil => intro board _ _ _; simp [kill_board]
  | cons p rest ih =>
    intro board hnd hlen hK
    obtain ⟨hpin, hpc⟩ := hK p (by simp)
    have hpb := cell_at_in_bounds h board p hlen hpin
    have hnd' := List.nodup_cons.mp hnd
    have hrest : ∀ q ∈ rest, is_in_checkerboard h q = true ∧
        cell_at h (board.set (p.y * h.kCheckerboardColNum + p.x).toNat NONE) q = some o := by
      intro q hq
      obtain ⟨hqin, hqc⟩ := hK q (List.mem_cons_of_mem _ hq)
      have hqb := cell_at_in_bounds h board q hlen hqin
      have hne : p ≠ q := fun e => hnd'.1 (e ▸ hq)
      refine ⟨hqin, ?_⟩
      unfold cell_at at hqc ⊢
      rw [readAt_set_other _ _ _ _ hpb.1 hqb.1 (index_ne_of_ne h p q hpin hqin hne)]
      exact hqc
    have h1 := ih (board.set (p.y * h.kCheckerboardColNum + p.x).toNat NONE) hnd'.2
      (by simpa using hlen) hrest
    have h2 := count_set_readAt board (p.y * h.kCheckerboardColNum + p.x) NONE o c hpc
    simp only [kill_board, hsq, List.length_cons]
    by_cases e1 : o = c <;> by_cases e2 : NONE = c <;>
      simp only [e1, e2, if_true, if_false] at h1 h2 ⊢ <;> omega

/-- The two per-line kill sets behind `check_kill_chesspiece`: each has at most one
position, on the row respectively the column of the trigger and different from the
trigger. -/
theorem check_kill_chesspiece_lines (h : Header) (board : List ChessPieceType) (pos : Vec2)
    (hlen : board.length = h.kCheckerboardRowNum * h.kCheckerboardColNum)
    (hin : is_in_checkerboard h pos = true) :
    ∃ key hs vs Kh Kv,
      cell_at h board pos = some key ∧
      get_chesspieces_with_horizontal h board pos = some hs ∧
      get_chesspieces_with_vertical h board pos = some vs ∧
      get_killed_chesspiece h board key hs = some Kh ∧
      get_killed_chesspiece h board key vs = some Kv ∧
      Kh.length ≤ 1 ∧ Kv.length ≤ 1 ∧
      check_kill_chesspiece h board pos =
        some (Kv.foldl (fun acc p => set_insert h p acc) Kh) ∧
      (∀ p ∈ Kh, p.y = pos.y ∧ p ≠ pos) ∧ (∀ q ∈ Kv, q.x = pos.x ∧ q ≠ pos) := by
  have hb := cell_at_in_bounds h board pos hlen hin
  obtain ⟨key, hkey⟩ := readAt_of_lt board _ hb.1 hb.2
  obtain ⟨hs, hhs, hsh⟩ := get_chesspieces_with_horizontal_spec h board pos hlen hin
  obtain ⟨vs, hvs, vsh⟩ := get_chesspieces_with_vertical_spec h board pos hlen hin
  have hsr : hs = [] ∨ ∃ c0 c1 c2, hs = [c0, c1, c2] ∧
      ∀ c ∈ hs, ∃ t, readAt board (c.y * h.kCheckerboardColNum + c.x) = some t := by
    rcases hsh with e | ⟨a, _, _, e, hocc⟩
    · exact Or.inl e
    · refine Or.inr ⟨_, _, _, e, ?_⟩
      intro c hc
      rw [e] at hc
      simp only [List.mem_cons, List.mem_singleton, List.not_mem_nil, or_false] at hc
      rcases hc with rfl | rfl | rfl
      · obtain ⟨t, ht, _⟩ := hocc a (le_refl a) (by omega); exact ⟨t, ht⟩
      · obtain ⟨t, ht, _⟩ := hocc (a + 1) (by omega) (by omega); exact ⟨t, ht⟩
      · obtain ⟨t, ht, _⟩ := hocc (a + 2) (by omega) (by omega); exact ⟨t, ht⟩
  have vsr : vs = [] ∨ ∃ c0 c1 c2, vs = [c0, c1, c2] ∧
      ∀ c ∈ vs, ∃ t, readAt board (c.y * h.kCheckerboardColNum + c.x) = some t := by
    rcases vsh with e | ⟨a, _, _, e, hocc⟩
    · exact Or.inl e
    · refine Or.inr ⟨_, _, _, e, ?_⟩
      intro c hc
      rw [e] at hc
      simp only [List.mem_cons, List.mem_singleton, List.not_mem_nil, or_false] at hc
      rcases hc with rfl | rfl | rfl
      · obtain ⟨t, ht, _⟩ := hocc a (le_refl a) (by omega); exact ⟨t, ht⟩
      · obtain ⟨t, ht, _⟩ := hocc (a + 1) (by omega) (by omega); exact ⟨t, ht⟩
      · obtain ⟨t, ht, _⟩ := hocc (a + 2) (by omega) (by omega); exact ⟨t, ht⟩
  obtain ⟨Kh, hKh, hKhl, hKhm⟩ := get_killed_chesspiece_window h board key hs hsr
  obtain ⟨Kv, hKv, hKvl, hKvm⟩ := get_killed_chesspiece_window h board key vs vsr
  have hnp : ∀ p t, readAt board (p.y * h.kCheckerboardColNum + p.x) = some t → t ≠ key →
      p ≠ pos := by
    intro p t ht hne e
    subst e
    rw [hkey] at ht
    exact hne (Option.some.inj ht).symm
  refine ⟨key, hs, vs, Kh, Kv, hkey, hhs, hvs, hKh, hKv, hKhl, hKvl,
    by simp [check_kill_chesspiece, hkey, hhs, hvs, hKh, hKv], ?_, ?_⟩
  · intro p hp
    obtain ⟨⟨c0, c1, c2, e, hpc⟩, t, ht, hne⟩ := hKhm p hp
    refine ⟨?_, hnp p t ht hne⟩
    rcases hsh with e0 | ⟨a, _, _, ea, _⟩
    · rw [e0] at e; simp at e
    · rw [ea] at e
      simp only [List.cons.injEq, and_true] at e
      obtain ⟨e0, _, e2⟩ := e
      rcases hpc with q | q
      · rw [q, ← e0]
      · rw [q, ← e2]
  · intro p hp
    obtain ⟨⟨c0, c1, c2, e, hpc⟩, t, ht, hne⟩ := hKvm p hp
    refine ⟨?_, hnp p t ht hne⟩
    rcases vsh with e0 | ⟨a, _, _, ea, _⟩
    · rw [e0] at e; simp at e
    · rw [ea] at e
      simp only [List.cons.injEq, and_true] at e
      obtain ⟨e0, _, e2⟩ := e
      rcases hpc with q | q
      · rw [q, ← e0]
      · rw [q, ← e2]

theorem set_insert_singleton_nodup (h : Header) (p q : Vec2) (hne : p ≠ q) :
    (set_insert h q [p]).Nodup := by
  simp only [set_insert]
  split
  · simp [hne.symm]
  · split
    · simp [hne]
    · simp

theorem check_kill_chesspiece_nodup (h : Header) (board : List ChessPieceType) (pos : Vec2)
    (K : List Vec2)
    (hlen : board.length = h.kCheckerboardRowNum * h.kCheckerboardColNum)
    (hin : is_in_checkerboard h pos = true)
    (hK : check_kill_chesspiece h board pos = some K) : K.Nodup := by
  obtain ⟨_, _, _, Kh, Kv, _, _, _, _, _, hKhl, hKvl, hK', hKh, hKv⟩ :=
    check_kill_chesspiece_lines h board pos hlen hin
  obtain rfl := Option.some.inj (hK.symm.trans hK')
  match Kh, Kv, hKhl, hKvl, hKh, hKv with
  | [], [], _, _, _, _ => simp
  | [], [q], _, _, _, _ => simp [set_insert]
  | [p], [], _, _, _, _ => simp
  | [p], [q], _, _, hp, hq =>
    have hp1 := hp p (by simp)
    have hq1 := hq q (by simp)
    have hne : p ≠ q := by
      intro e
      subst e
      apply hp1.2
      cases p; cases pos
      simp_all
    simpa using set_insert_singleton_nodup h p q hne

/-- The piece counts after one accepted request with in-bounds positions on a square
board with one cell per position. -/
theorem update_front_counts (h : Header) (s : GameLogic) (source target : Vec2)
    (hsq : h.kCheckerboardRowNum = h.kCheckerboardColNum) (hwf : WellFormed h s)
    (hins : is_in_checkerboard h source = true) (hint : is_in_checkerboard h target = true)
    (hacc : move_accepted h s source target = some true) :
    ∃ t swapped K s1,
      cell_at h s.checkerboard_ source = some t ∧ t ≠ NONE ∧
      swap_cells s.checkerboard_ (source.y * h.kCheckerboardRowNum + source.x)
        (target.y * h.kCheckerboardRowNum + target.x) = some swapped ∧
      swapped.length = s.checkerboard_.length ∧
      check_kill_chesspiece h swapped target = some K ∧
      update_front h s source target = some s1 ∧
      s1.checkerboard_.count t = s.checkerboard_.count t ∧
      s1.checkerboard_.count (opposite t) + K.length =
        s.checkerboard_.count (opposite t) := by
  obtain ⟨t', ht', htn, _⟩ := move_accepted_true h s source target hsq hwf hins hint hacc
  obtain ⟨t, swapped, K, ht, hswap, hlen, _, hK, _, hKm, hupd⟩ :=
    update_front_accepted h s source target hsq hwf hins hint hacc
  obtain rfl : t' = t := Option.some.inj (ht'.symm.trans ht)
  have hnd := check_kill_chesspiece_nodup h swapped target K (hlen.trans hwf) hint hK
  have hop : opposite t' ≠ t' ∧ NONE ≠ t' ∧ NONE ≠ opposite t' := by
    cases t' <;> simp_all [opposite]
  have hcells : ∀ p ∈ K, is_in_checkerboard h p = true ∧
      cell_at h swapped p = some (opposite t') := by
    intro p hp
    obtain ⟨hpin, _, _, tp, htp, hne, hnn⟩ := hKm p hp
    rw [htp, opposite_of_ne t' tp htn hnn hne]
    exact ⟨hpin, rfl⟩
  have c1 := kill_board_count h (opposite t') t' hsq K swapped hnd (hlen.trans hwf) hcells
  have c2 := kill_board_count h (opposite t') (opposite t') hsq K swapped hnd
    (hlen.trans hwf) hcells
  rw [if_neg hop.1, if_neg hop.2.1] at c1
  rw [if_pos rfl, if_neg hop.2.2] at c2
  have c3 := swap_cells_count _ _ _ _ t' hswap
  have c4 := swap_cells_count _ _ _ _ (opposite t') hswap
  refine ⟨t', swapped, K, _, ht, htn, hswap, hlen, hK, hupd, ?_, ?_⟩
  · simp only
    omega
  · simp only
    omega

/-- C19. On a square board with one cell per position, for a single queued request with
in-bounds `source` and `target`: `update` returns, and neither the number of `BLACK`
cells nor the number of `WHITE` cells is larger afterwards; when the guard accepts the
request, with `t` the moved colour and `K` the killed set, the number of cells holding
`t` is unchanged and the number of cells holding the other colour has decreased by
the size of `K`, which is at most 2, each of the two lines contributing at most one
position. -/
theorem update_piece_counts (h : Header) (s : GameLogic) (source target : Vec2)
    (hsq : h.kCheckerboardRowNum = h.kCheckerboardColNum) (hwf : WellFormed h s)
    (hins : is_in_checkerboard h source = true) (hint : is_in_checkerboard h target = true)
    (hq : s.move_queue_ = [⟨source, target⟩]) :
    ∃ s1, update h s = some s1 ∧
      s1.checkerboard_.count BLACK ≤ s.checkerboard_.count BLACK ∧
      s1.checkerboard_.count WHITE ≤ s.checkerboard_.count WHITE ∧
      (move_accepted h s source target = some true →
        ∃ t swapped K hs vs Kh Kv,
          cell_at h s.checkerboard_ source = some t ∧ t ≠ NONE ∧
          swap_cells s.checkerboard_ (source.y * h.kCheckerboardRowNum + source.x)
            (target.y * h.kCheckerboardRowNum + target.x) = some swapped ∧
          check_kill_chesspiece h swapped target = some K ∧
          get_chesspieces_with_horizontal h swapped target = some hs ∧
          get_chesspieces_with_vertical h swapped target = some vs ∧
          get_killed_chesspiece h swapped t hs = some Kh ∧
          get_killed_chesspiece h swapped t vs = some Kv ∧
          Kh.length ≤ 1 ∧ Kv.length ≤ 1 ∧ (∀ p ∈ K, p ∈ Kh ∨ p ∈ Kv) ∧
          K.length ≤ 2 ∧
          s1.checkerboard_.count t = s.checkerboard_.count t ∧
          s1.checkerboard_.count (opposite t) + K.length =
            s.checkerboard_.count (opposite t)) := by
  obtain ⟨ok, hok⟩ := move_accepted_total h s source target hsq hwf hint
  cases ok with
  | false =>
    refine ⟨{ s with move_queue_ := [] }, ?_, le_refl _, le_refl _, ?_⟩
    · rw [update_single h s source target hq]
      simp [update_front, hok]
    · intro hacc
      rw [hok] at hacc
      exact absurd (Option.some.inj hacc) (by decide)
  | true =>
    obtain ⟨t, swapped, K, s1, ht, htn, hswap, hlen, hK, hupd, hc1, hc2⟩ :=
      update_front_counts h s source target hsq hwf hins hint hok
    obtain ⟨key, hs, vs, Kh, Kv, hkey, hhs, hvs, hKh, hKv, hKhl, hKvl, hK', _, _⟩ :=
      check_kill_chesspiece_lines h swapped target (hlen.trans hwf) hint
    have hkt : key = t := by
      obtain ⟨t2, sw2, _, ht2, hsw2, _, hcell2, _⟩ :=
        update_front_accepted h s source target hsq hwf hins hint hok
      obtain rfl : sw2 = swapped := Option.some.inj (hsw2.symm.trans hswap)
      obtain rfl : t2 = t := Option.some.inj (ht2.symm.trans ht)
      have hst : source ≠ target :=
        (move_accepted_true h s source target hsq hwf hins hint hok).choose_spec.2.2.2.1
      have := hcell2 target hint
      rw [hkey, if_neg (Ne.symm hst), if_pos rfl] at this
      exact Option.some.inj this
    subst hkt
    obtain rfl : K = Kv.foldl (fun acc p => set_insert h p acc) Kh :=
      Option.some.inj (hK.symm.trans hK')
    have hmem : ∀ p ∈ Kv.foldl (fun acc p => set_insert h p acc) Kh, p ∈ Kh ∨ p ∈ Kv := by
      intro p hp
      exact (mem_foldl_set_insert h p Kv Kh hp).symm
    have hKl : (Kv.foldl (fun acc p => set_insert h p acc) Kh).length ≤ 2 := by
      match Kv, hKvl with
      | [], _ => simp only [List.foldl_nil]; omega
      | [q], _ =>
        have := set_insert_length_le h q Kh
        simp only [List.foldl_cons, List.foldl_nil]
        omega
    refine ⟨{ s1 with move_queue_ := [] }, ?_, ?_, ?_, ?_⟩
    · rw [update_single h s source target hq, hupd]
      rfl
    · cases key with
      | NONE => exact absurd rfl htn
      | BLACK => exact le_of_eq hc1
      | WHITE =>
        have : s1.checkerboard_.count BLACK + _ = s.checkerboard_.count BLACK := hc2
        show s1.checkerboard_.count BLACK ≤ _
        omega
    · cases key with
      | NONE => exact absurd rfl htn
      | WHITE => exact le_of_eq hc1
      | BLACK =>
        have : s1.checkerboard_.count WHITE + _ = s.checkerboard_.count WHITE := hc2
        show s1.checkerboard_.count WHITE ≤ _
        omega
    · intro _
      exact ⟨key, swapped, _, hs, vs, Kh, Kv, ht, htn, hswap, hK', hhs, hvs, hKh, hKv, hKhl,
        hKvl, hmem, hKl, hc1, hc2⟩

/-- C19, instance: on the 3 x 3 board `W B _ / _ _ B / _ _ _` the request from column 2
of row 1 to column 2 of row 0 keeps the two black pieces and removes the white one. -/
theorem update_piece_counts_witness :
    ∃ s1, update (square 3) (move_chess_piece (init board_wb_b) ⟨2, 1⟩ ⟨2, 0⟩) = some s1 ∧
      s1.checkerboard_.count BLACK = 2 ∧ s1.checkerboard_.count WHITE = 0 ∧
      board_wb_b.count BLACK = 2 ∧ board_wb_b.count WHITE = 1 := by
  obtain ⟨s1, h1, _, _, h4⟩ := update_piece_counts (square 3)
    (move_chess_piece (init board_wb_b) ⟨2, 1⟩ ⟨2, 0⟩) ⟨2, 1⟩ ⟨2, 0⟩ rfl (by decide)
    (by decide) (by decide) rfl
  have e : s1 = _ := Option.some.inj (h1.symm.trans (by decide :
    update (square 3) (move_chess_piece (init board_wb_b) ⟨2, 1⟩ ⟨2, 0⟩) = some
      { checkerboard_ := [NONE, BLACK, BLACK, NONE, NONE, NONE, NONE, NONE, NONE]
        standby_type_ := BLACK
        action_queue_ := [⟨ActionType.MOVED, BLACK, ⟨2, 1⟩, ⟨2, 0⟩⟩,
          ⟨ActionType.KILLED, NONE, ⟨2, 0⟩, ⟨0, 0⟩⟩,
          ⟨ActionType.STANDBY, BLACK, Vec2.zero, Vec2.zero⟩]
        move_queue_ := []
        action_callback_list_ := [] }))
  subst e
  exact ⟨_, h1, by decide, by decide, by decide, by decide⟩

end GameLogic
